import Mathlib

/-!
Shallow embedding of the file_organizer package (vifon/file_organizer),
following src/file_organizer/candidate.py, src/file_sorter/action.py,
src/file_organizer/file_organizer.py and src/file_organizer/interactive.py.

Machine-level conventions of the embedding:
* Python strings are Lean String values; character classes are modelled at
  ASCII precision (re's \w is modelled as alphanumeric-or-underscore,
  str.lower as Char.toLower per character).
* Python's float division in Candidate.ratio is modelled by exact division
  in the rationals (ratioQ below).
* Python sets of Candidate objects (deduplicated by the (root, name, score)
  key used by Candidate.__hash__ / __eq__) are modelled as lists without
  key duplicates, built by addCand, which ignores an element whose key is
  already present, exactly as set.add does.
* Python's sorted() is a stable sort; any two stable sorts with respect to
  the same key agree, so it is modelled by List.insertionSort.
* Filesystem access (os.listdir, os.walk, os.path.relpath) is an external
  collaborator and is modelled as an explicit Filesystem record of pure
  functions; shutil.move is modelled as a Bool-valued oracle telling which
  moves succeed, a raised exception being a returned failure.
-/

namespace FileOrg

/-- ASCII model of the regex class \w used by Candidate.split_name. -/
def isWordChar (c : Char) : Bool := c.isAlphanum || c = '_'

/-- Accumulator-based model of re.findall of one-or-more word characters:
splitWordsAux cs acc walks the remaining characters cs, acc being the
reversed current run of word characters. -/
def splitWordsAux : List Char → List Char → List (List Char)
  | [], acc => if acc.isEmpty then [] else [acc.reverse]
  | c :: cs, acc =>
    if isWordChar c then splitWordsAux cs (c :: acc)
    else if acc.isEmpty then splitWordsAux cs []
    else acc.reverse :: splitWordsAux cs []

/-- Model of re.findall of runs of word characters, as used by
Candidate.split_name. -/
def splitWords (l : List Char) : List (List Char) := splitWordsAux l []

/-- Model of Python str.lower (ASCII precision). -/
def pyLower (s : String) : String := String.mk (s.data.map Char.toLower)

/-- Boolean test that w is a leading segment of s; helper for substrB. -/
def prefixB : List Char → List Char → Bool
  | [], _ => true
  | _ :: _, [] => false
  | a :: as, b :: bs => a = b && prefixB as bs

/-- Model of the Python substring test (the in operator on str). -/
def substrB : List Char → List Char → Bool
  | w, [] => prefixB w []
  | w, b :: bs => prefixB w (b :: bs) || substrB w bs

/-- Model of os.path.join for the two-argument uses in the source. -/
def joinPath (root name : String) : String := root ++ "/" ++ name

/-- Characters of s after the last slash; model of os.path.basename. -/
def pyBasename (s : String) : String :=
  String.mk ((s.data.reverse.takeWhile (fun c => c != '/')).reverse)

/-- Model of os.path.dirname: everything before the last slash, with
trailing slashes stripped unless the result is all slashes. -/
def pyDirname (s : String) : String :=
  let head := (s.data.reverse.dropWhile (fun c => c != '/')).reverse
  if head.isEmpty then String.mk head
  else if head.all (fun c => c = '/') then String.mk head
  else String.mk (head.reverse.dropWhile (fun c => c = '/')).reverse

/-- Lexicographic strict comparison of character lists by code point:
the model of Python string comparison (written out so that it evaluates
inside the Lean kernel). -/
def strLTb : List Char → List Char → Bool
  | _, [] => false
  | [], _ :: _ => true
  | a :: as, b :: bs => decide (a < b) || (decide (a = b) && strLTb as bs)

/-- Python string less-than. -/
def pyLT (s t : String) : Prop := strLTb s.data t.data = true

/-- Python string less-or-equal. -/
def pyLE (s t : String) : Prop := pyLT s t ∨ s = t

theorem strLTb_irrefl (l : List Char) : strLTb l l = false := by
  induction l with
  | nil => rfl
  | cons a as ih => simp [strLTb, ih]

theorem strLTb_trans {l m n : List Char} (h1 : strLTb l m = true)
    (h2 : strLTb m n = true) : strLTb l n = true := by
  induction l generalizing m n with
  | nil =>
    cases n with
    | nil => cases m <;> simp [strLTb] at h2
    | cons c cs => rfl
  | cons a as ih =>
    cases m with
    | nil => simp [strLTb] at h1
    | cons b bs =>
      cases n with
      | nil => simp [strLTb] at h2
      | cons c cs =>
        simp only [strLTb, Bool.or_eq_true, Bool.and_eq_true, decide_eq_true_eq] at h1 h2 ⊢
        rcases h1 with h1 | ⟨rfl, h1⟩
        · rcases h2 with h2 | ⟨rfl, h2⟩
          · exact Or.inl (h1.trans h2)
          · exact Or.inl h1
        · rcases h2 with h2 | ⟨rfl, h2⟩
          · exact Or.inl h2
          · exact Or.inr ⟨rfl, ih h1 h2⟩

theorem strLTb_tri (l m : List Char) :
    strLTb l m = true ∨ l = m ∨ strLTb m l = true := by
  induction l generalizing m with
  | nil => cases m with
    | nil => exact Or.inr (Or.inl rfl)
    | cons b bs => exact Or.inl rfl
  | cons a as ih =>
    cases m with
    | nil => exact Or.inr (Or.inr rfl)
    | cons b bs =>
      simp only [strLTb, Bool.or_eq_true, Bool.and_eq_true, decide_eq_true_eq, List.cons.injEq]
      rcases lt_trichotomy a b with h | rfl | h
      · exact Or.inl (Or.inl h)
      · rcases ih bs with h2 | rfl | h2
        · exact Or.inl (Or.inr ⟨rfl, h2⟩)
        · exact Or.inr (Or.inl ⟨rfl, rfl⟩)
        · exact Or.inr (Or.inr (Or.inr ⟨rfl, h2⟩))
      · exact Or.inr (Or.inr (Or.inl h))

theorem strLTb_asymm {l m : List Char} (h : strLTb l m = true) :
    strLTb m l = false := by
  cases hml : strLTb m l with
  | false => rfl
  | true =>
    have := strLTb_trans h hml
    rw [strLTb_irrefl l] at this
    exact absurd this (by simp)

theorem String.data_inj {s t : String} (h : s.data = t.data) : s = t := by
  cases s; cases t; exact congrArg String.mk h

theorem pyLT_trans {s t u : String} (h1 : pyLT s t) (h2 : pyLT t u) : pyLT s u :=
  strLTb_trans h1 h2

theorem pyLT_irrefl (s : String) : ¬ pyLT s s := by
  unfold pyLT; rw [strLTb_irrefl]; simp

theorem pyLT_tri (s t : String) : pyLT s t ∨ s = t ∨ pyLT t s := by
  rcases strLTb_tri s.data t.data with h | h | h
  · exact Or.inl h
  · exact Or.inr (Or.inl (String.data_inj h))
  · exact Or.inr (Or.inr h)

theorem pyLT_asymm {s t : String} (h : pyLT s t) : ¬ pyLT t s := by
  unfold pyLT; rw [strLTb_asymm h]; simp

theorem pyLE_total (s t : String) : pyLE s t ∨ pyLE t s := by
  rcases pyLT_tri s t with h | h | h
  · exact Or.inl (Or.inl h)
  · exact Or.inl (Or.inr h)
  · exact Or.inr (Or.inl h)

theorem pyLE_trans {s t u : String} (h1 : pyLE s t) (h2 : pyLE t u) : pyLE s u := by
  rcases h1 with h1 | rfl
  · rcases h2 with h2 | rfl
    · exact Or.inl (pyLT_trans h1 h2)
    · exact Or.inl h1
  · exact h2

theorem pyLE_antisymm {s t : String} (h1 : pyLE s t) (h2 : pyLE t s) : s = t := by
  rcases h1 with h1 | rfl
  · rcases h2 with h2 | rfl
    · exact absurd h2 (pyLT_asymm h1)
    · rfl
  · rfl

instance : DecidableRel pyLT := fun s t => by unfold pyLT; infer_instance

instance : DecidableRel pyLE := fun s t => by unfold pyLE; infer_instance

/-- Candidate (src/file_organizer/candidate.py): a candidate target
directory.  score is None until computed, modelled as Option Nat. -/
structure Candidate where
  root : String
  name : String
  score : Option Nat
  length_threshold : Nat
deriving DecidableEq, Repr

instance : Inhabited Candidate := ⟨⟨"", "", none, 0⟩⟩

namespace Candidate

/-- Candidate.split_name: the name split into individual elements. -/
def split_name (c : Candidate) : List String :=
  (splitWords c.name.data).map (fun l => String.mk l)

/-- Candidate.consider_element: keep only elements of length at least
length_threshold. -/
def consider_element (c : Candidate) (element : String) : Bool :=
  c.length_threshold ≤ element.length

/-- Candidate.elements: the set of considered elements of the name,
modelled as a list deduplicated in first-occurrence order. -/
def elements (c : Candidate) : List String :=
  ((c.split_name).filter c.consider_element).dedup

/-- The integer value of the score field; sorting a Candidate whose score
is still None raises in Python and is never reached by the organizer, so
the default value is irrelevant there. -/
def scoreVal (c : Candidate) : Nat := c.score.getD 0

/-- Candidate.ratio: score / len(elements), with exact rational division
in place of Python float division (division by zero yields the junk value
0 instead of raising ZeroDivisionError). -/
def ratioQ (c : Candidate) : ℚ := (scoreVal c : ℚ) / (c.elements.length : ℚ)

/-- Candidate.__key, the identity used by __eq__ and __hash__. -/
def ckey (c : Candidate) : String × String × Option Nat := (c.root, c.name, c.score)

/-- Candidate.__lt__: lexicographic comparison of (root, name, score),
used by sorted() in FileOrganizer.grouped_queue. -/
def cndLE (x y : Candidate) : Prop :=
  pyLT x.root y.root ∨ (x.root = y.root ∧
    (pyLT x.name y.name ∨ (x.name = y.name ∧ scoreVal x ≤ scoreVal y)))

instance : DecidableRel cndLE := fun x y => by unfold cndLE; infer_instance

/-- Candidate.score (the method): the sorting key (-score, -ratio, name)
of Action.__iter__, expressed as the corresponding lexicographic
less-or-equal relation: score descending, then ratio descending, then
name ascending. -/
def keyLE (x y : Candidate) : Prop :=
  scoreVal y < scoreVal x ∨ (scoreVal x = scoreVal y ∧
    (ratioQ y < ratioQ x ∨ (ratioQ x = ratioQ y ∧ pyLE x.name y.name)))

instance : DecidableRel keyLE := fun x y => by unfold keyLE; infer_instance

instance : IsTotal Candidate keyLE :=
  ⟨fun x y => by
    unfold keyLE
    rcases lt_trichotomy (scoreVal x) (scoreVal y) with h | h | h
    · exact Or.inr (Or.inl h)
    · rcases lt_trichotomy (ratioQ x) (ratioQ y) with h2 | h2 | h2
      · exact Or.inr (Or.inr ⟨h.symm, Or.inl h2⟩)
      · rcases pyLE_total x.name y.name with h3 | h3
        · exact Or.inl (Or.inr ⟨h, Or.inr ⟨h2, h3⟩⟩)
        · exact Or.inr (Or.inr ⟨h.symm, Or.inr ⟨h2.symm, h3⟩⟩)
      · exact Or.inl (Or.inr ⟨h, Or.inl h2⟩)
    · exact Or.inl (Or.inl h)⟩

instance : IsTrans Candidate keyLE :=
  ⟨fun x y z hxy hyz => by
    unfold keyLE at *
    rcases hxy with h1 | ⟨e1, h1⟩
    · rcases hyz with h2 | ⟨e2, h2⟩
      · exact Or.inl (h2.trans h1)
      · exact Or.inl (by rw [← e2]; exact h1)
    · rcases hyz with h2 | ⟨e2, h2⟩
      · exact Or.inl (by rw [e1]; exact h2)
      · refine Or.inr ⟨e1.trans e2, ?_⟩
        rcases h1 with h1 | ⟨f1, h1⟩
        · rcases h2 with h2 | ⟨f2, h2⟩
          · exact Or.inl (h2.trans h1)
          · exact Or.inl (by rw [← f2]; exact h1)
        · rcases h2 with h2 | ⟨f2, h2⟩
          · exact Or.inl (by rw [f1]; exact h2)
          · exact Or.inr ⟨f1.trans f2, pyLE_trans h1 h2⟩⟩

instance : IsTotal Candidate cndLE :=
  ⟨fun x y => by
    unfold cndLE
    rcases pyLT_tri x.root y.root with h | h | h
    · exact Or.inl (Or.inl h)
    · rcases pyLT_tri x.name y.name with h2 | h2 | h2
      · exact Or.inl (Or.inr ⟨h, Or.inl h2⟩)
      · rcases le_total (scoreVal x) (scoreVal y) with h3 | h3
        · exact Or.inl (Or.inr ⟨h, Or.inr ⟨h2, h3⟩⟩)
        · exact Or.inr (Or.inr ⟨h.symm, Or.inr ⟨h2.symm, h3⟩⟩)
      · exact Or.inr (Or.inr ⟨h.symm, Or.inl h2⟩)
    · exact Or.inr (Or.inl h)⟩

instance : IsTrans Candidate cndLE :=
  ⟨fun x y z hxy hyz => by
    unfold cndLE at *
    rcases hxy with h1 | ⟨e1, h1⟩
    · rcases hyz with h2 | ⟨e2, h2⟩
      · exact Or.inl (pyLT_trans h1 h2)
      · exact Or.inl (by rw [← e2]; exact h1)
    · rcases hyz with h2 | ⟨e2, h2⟩
      · exact Or.inl (by rw [e1]; exact h2)
      · refine Or.inr ⟨e1.trans e2, ?_⟩
        rcases h1 with h1 | ⟨f1, h1⟩
        · rcases h2 with h2 | ⟨f2, h2⟩
          · exact Or.inl (pyLT_trans h1 h2)
          · exact Or.inl (by rw [← f2]; exact h1)
        · rcases h2 with h2 | ⟨f2, h2⟩
          · exact Or.inl (by rw [f1]; exact h2)
          · exact Or.inr ⟨f1.trans f2, h1.trans h2⟩⟩

end Candidate

/-- Action (src/file_sorter/action.py): a source file along with the
possible targets.  root is the source_root the file was found under. -/
structure Action where
  source : String
  root : String
  candidates : List Candidate
deriving DecidableEq, Repr

instance : Inhabited Action := ⟨⟨"", "", []⟩⟩

namespace Action

/-- Action.__iter__: the candidates sorted by the Candidate.score key,
i.e. score descending, ratio descending, name ascending.  sorted() is
stable, hence modelled by insertion sort. -/
def ranked (a : Action) : List Candidate :=
  List.insertionSort Candidate.keyLE a.candidates

end Action

/-- set.add on a Python set of Candidates: the element is dropped when one
with an equal (root, name, score) key is already present. -/
def addCand (l : List Candidate) (c : Candidate) : List Candidate :=
  if l.any (fun d => Candidate.ckey d = Candidate.ckey c) then l else l ++ [c]

/-- Repeated set.add of the elements of cs, in order. -/
def addAll (l : List Candidate) (cs : List Candidate) : List Candidate :=
  cs.foldl addCand l

/-- The organic score of the inner loop of FileOrganizer.calculate_actions:
the number of elements of the candidate whose lower-cased form occurs as a
substring of the lower-cased relative path. -/
def organicScore (c : Candidate) (relpath : String) : Nat :=
  (Candidate.elements c).countP
    (fun w => substrB (pyLower w).data (pyLower relpath).data)

/-- The synthetic Candidate injected for a matching rule with the given
target path: Candidate(name=basename(target), root=dirname(target),
score=9999). -/
def ruleCand (lt : Nat) (target : String) : Candidate :=
  ⟨pyDirname target, pyBasename target, some 9999, lt⟩

/-- The rule loop of calculate_actions: one sentinel Candidate for every
rule whose pattern is a substring of the relative path. -/
def ruleCands (rules : List (String × String)) (lt : Nat) (relpath : String) :
    List Candidate :=
  rules.filterMap
    (fun r => if substrB r.1.data relpath.data then some (ruleCand lt r.2) else none)

/-- The organic loop of calculate_actions: for each Candidate template a
score is computed and, when positive, a copy carrying that score is kept
(copy.copy followed by assigning c.score). -/
def organicAdds (tmpls : List Candidate) (relpath : String) : List Candidate :=
  tmpls.filterMap (fun c =>
    let s := organicScore c relpath
    if 0 < s then some { c with score := some s } else none)

/-- The external filesystem collaborators: dirs models get_targets
(immediate target subdirectories of a root), files models get_files (the
stream of file paths under a source root), rel models os.path.relpath of a
file path with respect to a source root. -/
structure Filesystem where
  dirs : String → List String
  files : String → List String
  rel : String → String → String

/-- FileOrganizer (src/file_organizer/file_organizer.py): the organizer
state.  actions is the dict keyed by the full file path, modelled as an
insertion-ordered association list; queue is the decision queue. -/
structure FileOrganizer where
  source_roots : Option (List String)
  rules : List (String × String)
  actions : List (String × Action)
  length_threshold : Nat
  queue : List (Action × Candidate)
deriving DecidableEq

/-- Dict lookup in the actions map. -/
def alookup (acts : List (String × Action)) (k : String) : Option Action :=
  match acts with
  | [] => none
  | (k', a) :: rest => if k' = k then some a else alookup rest k

/-- Dict assignment in the actions map: replace in place when the key is
present (keeping its position, as Python dicts do), append otherwise. -/
def ainsert (acts : List (String × Action)) (k : String) (a : Action) :
    List (String × Action) :=
  match acts with
  | [] => [(k, a)]
  | (k', a') :: rest =>
    if k' = k then (k', a) :: rest else (k', a') :: ainsert rest k a

/-- The body of the file loop of FileOrganizer.calculate_actions for a
single file f found under source root sr: look up or create the Action
keyed by the file path, extend its candidate set with the rule candidates
and the organic candidates, and store it back unless its candidate set is
still empty. -/
def processFile (rules : List (String × String)) (lt : Nat)
    (tmpls : List Candidate) (fs : Filesystem)
    (acts : List (String × Action)) (sr f : String) : List (String × Action) :=
  let relpath := fs.rel f sr
  let a0 : Action :=
    match alookup acts f with
    | some a => a
    | none => ⟨relpath, sr, []⟩
  let a1 : Action := { a0 with candidates := addAll a0.candidates (ruleCands rules lt relpath) }
  let a2 : Action := { a1 with candidates := addAll a1.candidates (organicAdds tmpls relpath) }
  if a2.candidates = [] then acts else ainsert acts f a2

/-- The Candidate templates built from the target root at the start of
calculate_actions (score still unset). -/
def targetTemplates (fs : Filesystem) (lt : Nat) (target_root : String) :
    List Candidate :=
  (fs.dirs target_root).map (fun t => ⟨target_root, t, none, lt⟩)

/-- Result of a call to calculate_actions: raised is true when the call
raised FileOrganizerError, in which case org is the unchanged receiver. -/
structure CalcResult where
  raised : Bool
  org : FileOrganizer
deriving DecidableEq

/-- FileOrganizer.calculate_actions: fall back to the construction-time
source roots when the argument is omitted, raise FileOrganizerError when
none are known, otherwise walk every file of every source root and extend
the Action map. -/
def calculate_actions (fs : Filesystem) (org : FileOrganizer)
    (target_root : String) (source_roots : Option (List String)) : CalcResult :=
  let sroots : Option (List String) :=
    match source_roots with
    | some s => some s
    | none => org.source_roots
  match sroots with
  | none => ⟨true, org⟩
  | some sroots =>
    let tmpls := targetTemplates fs org.length_threshold target_root
    let acts := sroots.foldl
      (fun acts sr =>
        (fs.files sr).foldl
          (fun acts f => processFile org.rules org.length_threshold tmpls fs acts sr f)
          acts)
      org.actions
    ⟨false, { org with actions := acts }⟩

/-- The ordering by source path used by choose_actions. -/
def srcLE (x y : Action) : Prop := pyLE x.source y.source

instance : DecidableRel srcLE := fun x y => by unfold srcLE; infer_instance

instance : IsTotal Action srcLE := ⟨fun x y => pyLE_total x.source y.source⟩

instance : IsTrans Action srcLE := ⟨fun _ _ _ h1 h2 => pyLE_trans h1 h2⟩

/-- sorted(self.actions.values(), key=lambda x: x.source), as iterated by
FileOrganizer.choose_actions. -/
def sortedActions (org : FileOrganizer) : List Action :=
  List.insertionSort srcLE (org.actions.map (fun p => p.2))

/-- FileOrganizer.consider_action with the base enqueue_action, which
appends (action, candidate) and returns True: the first candidate of the
ranked iteration is enqueued, an Action without candidates enqueues
nothing. -/
def consider_action (org : FileOrganizer) (a : Action) : FileOrganizer :=
  match Action.ranked a with
  | [] => org
  | c :: _ => { org with queue := org.queue ++ [(a, c)] }

/-- FileOrganizer.choose_actions (automatic mode): consider every stored
Action in ascending source order. -/
def choose_actions (org : FileOrganizer) : FileOrganizer :=
  (sortedActions org).foldl consider_action org

/-- itertools.groupby: maximal runs of adjacent queue entries whose chosen
Candidates compare equal (Candidate.__eq__, i.e. equal ckey); the run's
key value is the candidate of its first element. -/
def chunkQueue : List (Action × Candidate) → List (Candidate × List (Action × Candidate))
  | [] => []
  | d :: ds =>
    match chunkQueue ds with
    | [] => [(d.2, [d])]
    | (c, g) :: rest =>
      if Candidate.ckey d.2 = Candidate.ckey c then (d.2, d :: g) :: rest
      else (d.2, [d]) :: (c, g) :: rest

/-- The queue ordering of sorted(self.queue, key=candidate): compare the
chosen Candidates by Candidate.__lt__. -/
def dQLE (d e : Action × Candidate) : Prop := Candidate.cndLE d.2 e.2

instance : DecidableRel dQLE := fun d e => by unfold dQLE; infer_instance

instance : IsTotal (Action × Candidate) dQLE :=
  ⟨fun a b => total_of Candidate.cndLE a.2 b.2⟩

instance : IsTrans (Action × Candidate) dQLE :=
  ⟨fun _ _ _ h1 h2 => trans_of Candidate.cndLE h1 h2⟩

/-- FileOrganizer.grouped_queue: groupby(sorted(queue, key=candidate),
key=candidate), i.e. sort the queue by the chosen Candidate and group
adjacent equal candidates. -/
def grouped_queue (queue : List (Action × Candidate)) :
    List (Candidate × List (Action × Candidate)) :=
  chunkQueue (List.insertionSort dQLE queue)

/-- FileOrganizer.move_group: move each source file in turn via
move_single (shutil.move).  mv tells which individual moves succeed; a
raised exception propagates, so the files after the failing one are not
attempted.  Returns the performed moves and whether the loop completed. -/
def move_group (mv : String → String → Bool) :
    List String → String → List (String × String) × Bool
  | [], _ => ([], true)
  | s :: ss, dst =>
    if mv s dst then
      let r := move_group mv ss dst
      ((s, dst) :: r.1, r.2)
    else ([], false)

/-- os.path.join(action.root, action.source). -/
def sourcePath (a : Action) : String := joinPath a.root a.source

/-- os.path.join(candidate.root, candidate.name). -/
def targetPath (c : Candidate) : String := joinPath c.root c.name

/-- FileOrganizer.execute_action_group: move every source path of the
group to the group's target path. -/
def execute_action_group (mv : String → String → Bool) (c : Candidate)
    (g : List (Action × Candidate)) : List (String × String) × Bool :=
  move_group mv (g.map (fun d => sourcePath d.1)) (targetPath c)

/-- The loop of FileOrganizer.execute_actions over the grouped queue; an
exception raised inside a group propagates and stops the loop. -/
def execute_groups (mv : String → String → Bool) :
    List (Candidate × List (Action × Candidate)) → List (String × String) × Bool
  | [] => ([], true)
  | cg :: rest =>
    let r := execute_action_group mv cg.1 cg.2
    if r.2 then
      let r2 := execute_groups mv rest
      (r.1 ++ r2.1, r2.2)
    else (r.1, false)

/-- FileOrganizer.execute_actions: execute the queued decisions grouped by
the target directory. -/
def execute_actions (mv : String → String → Bool)
    (queue : List (Action × Candidate)) : List (String × String) × Bool :=
  execute_groups mv (grouped_queue queue)

/-- All moves the grouped queue schedules, in execution order. -/
def plannedMoves (queue : List (Action × Candidate)) : List (String × String) :=
  (grouped_queue queue).flatMap
    (fun cg => cg.2.map (fun d => (sourcePath d.1, targetPath cg.1)))

/-- The sticky action_for_all state of InteractiveFileOrganizer. -/
inductive AllMode where
  | accept
  | skip
deriving DecidableEq, Repr

/-- The mutable state the interactive resolution loop threads: the
decision queue and action_for_all. -/
structure IState where
  queue : List (Action × Candidate)
  afa : Option AllMode
deriving DecidableEq, Repr

/-- Result of InteractiveFileOrganizer.enqueue_action on a finite script
of user inputs: ret b st rest models returning b with updated state and
unread inputs, exit models sys.exit(0) on the quit answer, blocked models
running out of scripted input while Python would still be blocked on
input(). -/
inductive EnqRes where
  | ret (advance : Bool) (st : IState) (rest : List String)
  | exit (st : IState) (rest : List String)
  | blocked
deriving DecidableEq, Repr

/-- InteractiveFileOrganizer.enqueue_action: the prompt loop for one
offered candidate.  When action_for_all is set no input is read and the
loop behaves as if the user had answered y (accept all) or s (skip all);
the inline answers follow the source's if/elif chain on the lower-cased
input, an unrecognized answer consuming one input and re-prompting.  The
answers a and k mutate action_for_all and loop, which immediately resolves
to the scripted y or s of the next iteration. -/
def enqueue_action (st : IState) (a : Action) (c : Candidate) :
    List String → EnqRes
  | [] =>
    match st.afa with
    | some AllMode.accept => EnqRes.ret true { st with queue := st.queue ++ [(a, c)] } []
    | some AllMode.skip => EnqRes.ret true st []
    | none => EnqRes.blocked
  | i :: rest =>
    match st.afa with
    | some AllMode.accept => EnqRes.ret true { st with queue := st.queue ++ [(a, c)] } (i :: rest)
    | some AllMode.skip => EnqRes.ret true st (i :: rest)
    | none =>
      let choice := pyLower i
      if choice = "y" then
        EnqRes.ret true { st with queue := st.queue ++ [(a, c)] } rest
      else if choice = "s" then EnqRes.ret true st rest
      else if choice = "k" then
        EnqRes.ret true { st with afa := some AllMode.skip } rest
      else if choice = "n" ∨ choice = "" then EnqRes.ret false st rest
      else if choice = "a" then
        EnqRes.ret true { st with queue := st.queue ++ [(a, c)], afa := some AllMode.accept } rest
      else if choice = "q" then EnqRes.exit st rest
      else enqueue_action st a c rest

/-- Result of a resolution phase (consider_action or choose_actions) in
interactive mode. -/
inductive ResRes where
  | ok (st : IState) (rest : List String)
  | exit (st : IState) (rest : List String)
  | blocked
deriving DecidableEq, Repr

/-- The candidate loop of FileOrganizer.consider_action driven by the
interactive enqueue_action: a True return moves on to the next Action, a
False return offers the next candidate, sys.exit propagates. -/
def considerLoop (a : Action) : IState → List Candidate → List String → ResRes
  | st, [], inputs => ResRes.ok st inputs
  | st, c :: cs, inputs =>
    match enqueue_action st a c inputs with
    | EnqRes.ret true st' rest => ResRes.ok st' rest
    | EnqRes.ret false st' rest => considerLoop a st' cs rest
    | EnqRes.exit st' rest => ResRes.exit st' rest
    | EnqRes.blocked => ResRes.blocked

/-- consider_action in interactive mode: offer the candidates in ranked
order. -/
def consider_action_i (a : Action) (st : IState) (inputs : List String) : ResRes :=
  considerLoop a st (Action.ranked a) inputs

/-- The Action loop of choose_actions driven by the interactive
consider_action. -/
def chooseLoop : IState → List Action → List String → ResRes
  | st, [], inputs => ResRes.ok st inputs
  | st, a :: as, inputs =>
    match consider_action_i a st inputs with
    | ResRes.ok st' rest => chooseLoop st' as rest
    | ResRes.exit st' rest => ResRes.exit st' rest
    | ResRes.blocked => ResRes.blocked

/-- InteractiveFileOrganizer.choose_actions: reset action_for_all to None
and walk the stored Actions in ascending source order. -/
def choose_actions_i (org : FileOrganizer) (inputs : List String) : ResRes :=
  chooseLoop ⟨org.queue, none⟩ (sortedActions org) inputs

/-- The final confirmation loop of InteractiveFileOrganizer
.execute_actions: keep reading until the lower-cased answer is one of y,
n, q or empty. -/
def confirmLoop : List String → Option (String × List String)
  | [] => none
  | i :: rest =>
    let c := pyLower i
    if c = "y" ∨ c = "n" ∨ c = "q" ∨ c = "" then some (c, rest) else confirmLoop rest

/-- FileOrganizer.run in interactive mode, up to the performed moves:
resolve interactively, then — unless the resolution was aborted by
sys.exit or the queue is empty — ask for final confirmation and execute
the queue only on a y answer.  Only the y answer executes; n, q and empty
all return without moving anything. -/
def run_i (mv : String → String → Bool) (org : FileOrganizer)
    (inputs : List String) : List (String × String) :=
  match choose_actions_i org inputs with
  | ResRes.exit _ _ => []
  | ResRes.blocked => []
  | ResRes.ok st rest =>
    if st.queue = [] then []
    else
      match confirmLoop rest with
      | some (c, _) => if c = "y" then (execute_actions mv st.queue).1 else []
      | none => []

/-- Modelled from the spec: merging two Action maps by source key, where
an Action already present is reused and its candidate set extended with
the other map's candidates, never replaced (spec, section 3 Action
lifecycle and section 8 multi-pass associativity).  This definition
follows the spec's words and is compared against the sequential behaviour
of calculate_actions. -/
def mergeActionsSpec (A B : List (String × Action)) : List (String × Action) :=
  B.foldl
    (fun acc kb =>
      match alookup acc kb.1 with
      | some a => ainsert acc kb.1 { a with candidates := addAll a.candidates kb.2.candidates }
      | none => acc ++ [kb])
    A

/-- Pointwise description of mergeActionsSpec at one key. -/
def mergeVal : Option Action → Option Action → Option Action
  | none, ob => ob
  | some a, none => some a
  | some a, some b => some { a with candidates := addAll a.candidates b.candidates }

/-- A candidate whose score was produced by the organic scoring loop of
calculate_actions against the given relative path: the stored score is
the organic match count, and it is positive (the loop only keeps strictly
positive scores). -/
def OrganicallyScored (c : Candidate) (relpath : String) : Prop :=
  c.score = some (organicScore c relpath) ∧ 0 < organicScore c relpath

/-- x strictly precedes y in l: every occurrence of x is at a smaller
index than every occurrence of y. -/
def precedes (x y : Candidate) (l : List Candidate) : Prop :=
  ∀ i j (hi : i < l.length) (hj : j < l.length),
    l.get ⟨i, hi⟩ = x → l.get ⟨j, hj⟩ = y → i < j

/-- C5: for every Action, iterating over it yields its Candidates sorted
by score descending, then ratio descending, then name ascending (that
lexicographic order is keyLE), and the ranking is a permutation of the
candidate set that depends on nothing but the candidate set, so repeated
iterations over the same unchanged candidate set agree. -/
theorem C5_ranked_sorted (a : Action) :
    List.Pairwise Candidate.keyLE (Action.ranked a) ∧
    (Action.ranked a).Perm a.candidates ∧
    ∀ s r : String, Action.ranked ⟨s, r, a.candidates⟩ = Action.ranked a :=
  ⟨List.sorted_insertionSort Candidate.keyLE a.candidates,
   List.perm_insertionSort Candidate.keyLE a.candidates,
   fun _ _ => rfl⟩

/-- C8: calculate_actions raises (raised = true) exactly when both the
source_roots argument and the construction-time source roots are absent,
and a raising call returns the organizer unchanged, so the Action map and
the decision queue are untouched. -/
theorem C8_calculate_raises_iff (fs : Filesystem) (org : FileOrganizer)
    (tr : String) (srcs : Option (List String)) :
    ((calculate_actions fs org tr srcs).raised = true ↔
      (srcs = none ∧ org.source_roots = none)) ∧
    ((calculate_actions fs org tr srcs).raised = true →
      (calculate_actions fs org tr srcs).org = org) := by
  cases srcs with
  | some s => simp [calculate_actions]
  | none =>
    cases h : org.source_roots with
    | none => simp [calculate_actions, h]
    | some s => simp [calculate_actions, h]

/-- Concrete empty filesystem for witnesses. -/
def fsEmpty : Filesystem := ⟨fun _ => [], fun _ => [], fun f _ => f⟩

/-- Organizer constructed without source roots. -/
def orgNoRoots : FileOrganizer := ⟨none, [], [], 3, []⟩

/-- Target root used by witnesses. -/
def trW : String := "/t"

theorem C8_calculate_raises_iff_witness :
    (calculate_actions fsEmpty orgNoRoots trW none).raised = true ∧
    (calculate_actions fsEmpty orgNoRoots trW none).org = orgNoRoots := by
  have h := C8_calculate_raises_iff fsEmpty orgNoRoots trW none
  exact ⟨h.1.mpr ⟨rfl, rfl⟩, h.2 (h.1.mpr ⟨rfl, rfl⟩)⟩

/-- C10: every Candidate kept by the organic scoring loop carries the
positive organic match count as its score; since that count only counts
elements, a positive score forces a non-empty elements set, so the ratio
denominator of an organically scored Candidate is never zero. -/
theorem C10_organic_score_safe (tmpls : List Candidate) (relpath : String)
    (c : Candidate) (h : c ∈ organicAdds tmpls relpath) :
    c.score = some (organicScore c relpath) ∧
    0 < organicScore c relpath ∧
    0 < c.elements.length := by
  rcases List.mem_filterMap.mp h with ⟨t, _ht, he⟩
  by_cases hs : 0 < organicScore t relpath
  · rw [if_pos hs] at he
    have hc : c = { t with score := some (organicScore t relpath) } := (Option.some.injEq _ _ ▸ he).symm
    subst hc
    have hsame : organicScore { t with score := some (organicScore t relpath) } relpath
        = organicScore t relpath := rfl
    refine ⟨by rw [hsame], by rw [hsame]; exact hs, ?_⟩
    have hle : organicScore t relpath ≤ (Candidate.elements t).length :=
      List.countP_le_length _
    have : 0 < (Candidate.elements t).length := lt_of_lt_of_le hs hle
    exact this
  · rw [if_neg hs] at he
    exact absurd he (by simp)

/-- Candidate template of the witness target directory. -/
def tmplW : Candidate := ⟨"/b", "Tolkien Collection", none, 3⟩

/-- Witness relative path. -/
def relW : String := "tolkien_hobbit.pdf"

theorem C10_organic_score_safe_witness :
    ({ tmplW with score := some 1 } : Candidate).score
        = some (organicScore { tmplW with score := some 1 } relW) ∧
    0 < organicScore { tmplW with score := some 1 } relW ∧
    0 < ({ tmplW with score := some 1 } : Candidate).elements.length :=
  C10_organic_score_safe [tmplW] relW _ (by decide)

/-- The queue extension performed by the automatic choose_actions on a
list of Actions all of which still have candidates. -/
theorem choose_foldl_queue (acts : List Action) (org : FileOrganizer)
    (h : ∀ a ∈ acts, a.candidates ≠ []) :
    (acts.foldl consider_action org).queue =
      org.queue ++ acts.map (fun a => (a, (Action.ranked a).headI)) := by
  induction acts generalizing org with
  | nil => simp
  | cons a as ih =>
    have ha : a.candidates ≠ [] := h a (List.mem_cons_self a as)
    have hr : Action.ranked a ≠ [] := by
      intro e
      have hp : ([] : List Candidate).Perm a.candidates := by
        rw [← e]; exact List.perm_insertionSort Candidate.keyLE a.candidates
      exact ha hp.symm.eq_nil
    cases hrk : Action.ranked a with
    | nil => exact absurd hrk hr
    | cons c cs =>
      have step : consider_action org a = { org with queue := org.queue ++ [(a, c)] } := by
        simp [consider_action, hrk]
      rw [List.foldl_cons, step, ih _ (fun b hb => h b (List.mem_cons_of_mem a hb))]
      simp [hrk]

/-- C9: in automatic mode, provided every stored Action still has a
non-empty candidate set (which calculate_actions guarantees), the decision
queue gains exactly one decision per stored Action, each paired with the
top-ranked Candidate of that Action, and the commitment order is the
visitation order: the stored Actions sorted ascending by source path. -/
theorem C9_automatic_queue (org : FileOrganizer)
    (h : ∀ a ∈ org.actions.map (fun p => p.2), a.candidates ≠ []) :
    (choose_actions org).queue =
      org.queue ++ (sortedActions org).map (fun a => (a, (Action.ranked a).headI)) ∧
    (sortedActions org).Perm (org.actions.map (fun p => p.2)) ∧
    List.Pairwise srcLE (sortedActions org) := by
  refine ⟨?_, List.perm_insertionSort srcLE _, List.sorted_insertionSort srcLE _⟩
  exact choose_foldl_queue (sortedActions org) org
    (fun a ha => h a ((List.perm_insertionSort srcLE _).mem_iff.mp ha))

/-- Witness candidates with distinct scores. -/
def wA : Candidate := ⟨"/b", "alpha beta", some 2, 3⟩

def wB : Candidate := ⟨"/b", "gamma", some 1, 3⟩

/-- Witness organizer holding two Actions out of source order. -/
def orgTwo : FileOrganizer :=
  ⟨some ["/s"], [], [("k2", ⟨"b", "/s", [wB]⟩), ("k1", ⟨"a", "/s", [wA, wB]⟩)], 3, []⟩

/-- Top-ranked witness candidate offered first in interactive runs. -/
def iTop : Candidate := ⟨"/b", "top", some 2, 3⟩

/-- Second-ranked witness candidate. -/
def iSnd : Candidate := ⟨"/b", "second", some 1, 3⟩

/-- Witness Action holding both interactive candidates (stored unsorted;
ranked iteration orders iTop before iSnd by score). -/
def iAct : Action := ⟨"f", "/s", [iSnd, iTop]⟩

/-- Fresh interactive state: empty queue, action_for_all unset. -/
def stFresh : IState := ⟨[], none⟩

/-- The skip answer. -/
def ansS : String := "s"

/-- The no answer. -/
def ansN : String := "n"

/-- The quit answer. -/
def ansQ : String := "q"

/-- C1 (counterexample): with the candidates offered in ranked order
(iTop first), answering s abandons the whole Action — the queue stays
empty, no lower-ranked candidate is offered and the next input is left
unread — while the claim predicts the second-ranked candidate is offered
and then accepted by the following y; dually, answering n offers the
second-ranked candidate, which the following y commits, while the claim
predicts the Action is rejected outright. -/
theorem C1_skip_no_counterexample :
    Action.ranked iAct = [iTop, iSnd] ∧
    consider_action_i iAct stFresh [ansS, "y"] = ResRes.ok stFresh ["y"] ∧
    consider_action_i iAct stFresh [ansS, "y"] ≠
      ResRes.ok ⟨[(iAct, iSnd)], none⟩ [] ∧
    consider_action_i iAct stFresh [ansN, "y"] =
      ResRes.ok ⟨[(iAct, iSnd)], none⟩ [] ∧
    consider_action_i iAct stFresh [ansN, "y"] ≠ ResRes.ok stFresh ["y"] := by
  decide

/-- C1 (amended): in the interactive resolution loop the roles are the
reverse of the claim: an s (skip) answer rejects the Action entirely —
enqueue_action returns True with the queue unchanged, so consider_action
moves on and no lower-ranked Candidate of that Action is offered — while
an n or empty answer rejects only the offered Candidate and the loop is
re-entered with the remaining, lower-ranked candidates; when no candidate
remains the Action is abandoned with no decision. -/
theorem C1_skip_no_amended (st : IState) (a : Action) (c : Candidate)
    (cs : List Candidate) (i : String) (rest ins : List String)
    (h : st.afa = none) :
    (pyLower i = "s" → considerLoop a st (c :: cs) (i :: rest) = ResRes.ok st rest) ∧
    ((pyLower i = "n" ∨ pyLower i = "") →
      considerLoop a st (c :: cs) (i :: rest) = considerLoop a st cs rest) ∧
    considerLoop a st [] ins = ResRes.ok st ins := by
  refine ⟨fun hs => ?_, fun hn => ?_, rfl⟩
  · simp [considerLoop, enqueue_action, h, hs]
  · have he : enqueue_action st a c (i :: rest) = EnqRes.ret false st rest := by
      rcases hn with hn | hn <;> simp [enqueue_action, h, hn]
    simp [considerLoop, he]

theorem C1_skip_no_amended_witness :
    considerLoop iAct stFresh (iTop :: [iSnd]) (ansS :: ["y"]) = ResRes.ok stFresh ["y"] ∧
    considerLoop iAct stFresh (iTop :: [iSnd]) (ansN :: ["y"]) =
      considerLoop iAct stFresh [iSnd] ["y"] ∧
    considerLoop iAct stFresh [] ["y"] = ResRes.ok stFresh ["y"] := by
  have h1 := C1_skip_no_amended stFresh iAct iTop [iSnd] ansS ["y"] ["y"] rfl
  have h2 := C1_skip_no_amended stFresh iAct iTop [iSnd] ansN ["y"] ["y"] rfl
  exact ⟨h1.1 (by decide), h2.2.1 (Or.inl (by decide)), h1.2.2⟩

/-- C7: answering quit at an interactive prompt terminates resolution
immediately.  At the prompt itself, a q answer makes enqueue_action exit
with the state — in particular the decision queue — exactly as it was
just before the prompt and with no further input read; the exit
propagates unchanged through the candidate loop and the Action loop, so
no further prompts occur and nothing else is committed; a run whose
resolution exited performs no moves; and a q answer at the final
execution confirmation prompt likewise performs no moves. -/
theorem C7_quit_aborts (st st2 : IState) (a : Action) (c : Candidate)
    (cs : List Candidate) (as : List Action) (i : String)
    (ins rest rest2 : List String) (org : FileOrganizer)
    (mv : String → String → Bool) :
    (st.afa = none → pyLower i = "q" →
      enqueue_action st a c (i :: rest) = EnqRes.exit st rest) ∧
    (enqueue_action st a c ins = EnqRes.exit st2 rest2 →
      considerLoop a st (c :: cs) ins = ResRes.exit st2 rest2) ∧
    (consider_action_i a st ins = ResRes.exit st2 rest2 →
      chooseLoop st (a :: as) ins = ResRes.exit st2 rest2) ∧
    (choose_actions_i org ins = ResRes.exit st2 rest2 → run_i mv org ins = []) ∧
    (choose_actions_i org ins = ResRes.ok st2 (i :: rest2) → pyLower i = "q" →
      run_i mv org ins = []) := by
    refine ⟨fun h hq => ?_, fun he => ?_, fun hc => ?_, fun hx => ?_, fun ho hq => ?_⟩
    · simp [enqueue_action, h, hq]
    · simp [considerLoop, he]
    · simp [chooseLoop, hc]
    · simp [run_i, hx]
    · simp [run_i, ho, confirmLoop, hq]

/-- Witness organizer with one Action for the interactive runs. -/
def orgOne : FileOrganizer := ⟨some ["/s"], [], [("k1", iAct)], 3, []⟩

theorem takeWhile_append_pos {α : Type} (p : α → Bool) (l1 l2 : List α)
    (h : l1.all p = true) : (l1 ++ l2).takeWhile p = l1 ++ l2.takeWhile p := by
  induction l1 with
  | nil => simp
  | cons a l ih =>
    simp only [List.all_cons, Bool.and_eq_true] at h
    simp [List.takeWhile_cons, h.1, ih h.2]

theorem takeWhile_append_neg {α : Type} (p : α → Bool) (l1 l2 : List α)
    (h : l1.all p = false) : (l1 ++ l2).takeWhile p = l1.takeWhile p := by
  induction l1 with
  | nil => simp at h
  | cons a l ih =>
    by_cases hpa : p a
    · have hl : l.all p = false := by simpa [List.all_cons, hpa] using h
      simp [List.takeWhile_cons, hpa, ih hl]
    · simp [List.takeWhile_cons, hpa]

theorem takeWhile_all_self {α : Type} (p : α → Bool) (l : List α)
    (h : l.all p = true) : l.takeWhile p = l := by
  induction l with
  | nil => rfl
  | cons a l ih =>
    simp only [List.all_cons, Bool.and_eq_true] at h
    simp [List.takeWhile_cons, h.1, ih h.2]

/-- move_group performs exactly the moves up to (and excluding) the first
failing one, and completes exactly when every move succeeds. -/
theorem move_group_eq (mv : String → String → Bool) (srcs : List String)
    (dst : String) :
    move_group mv srcs dst =
      ((srcs.map (fun s => (s, dst))).takeWhile (fun p => mv p.1 p.2),
       (srcs.map (fun s => (s, dst))).all (fun p => mv p.1 p.2)) := by
  induction srcs with
  | nil => rfl
  | cons s ss ih =>
    by_cases h : mv s dst
    · simp [move_group, h, ih, List.takeWhile_cons]
    · simp [move_group, h, List.takeWhile_cons]

/-- The grouped execution loop performs exactly the scheduled moves up to
the first failing one and stops there. -/
theorem execute_groups_eq (mv : String → String → Bool)
    (gs : List (Candidate × List (Action × Candidate))) :
    execute_groups mv gs =
      ((gs.flatMap (fun cg => cg.2.map (fun d => (sourcePath d.1, targetPath cg.1)))).takeWhile
          (fun p => mv p.1 p.2),
       (gs.flatMap (fun cg => cg.2.map (fun d => (sourcePath d.1, targetPath cg.1)))).all
          (fun p => mv p.1 p.2)) := by
  induction gs with
  | nil => rfl
  | cons cg rest ih =>
    have hmap : (cg.2.map (fun d => sourcePath d.1)).map (fun s => (s, targetPath cg.1))
        = cg.2.map (fun d => (sourcePath d.1, targetPath cg.1)) := by
      rw [List.map_map]
      rfl
    by_cases hall :
        (cg.2.map (fun d => (sourcePath d.1, targetPath cg.1))).all (fun p => mv p.1 p.2)
    · simp only [execute_groups, execute_action_group, move_group_eq, hmap, hall,
        if_true, ih, List.flatMap_cons, List.all_append]
      rw [takeWhile_append_pos _ _ _ hall, takeWhile_all_self _ _ hall]
      simp [hall]
    · have hall' :
          (cg.2.map (fun d => (sourcePath d.1, targetPath cg.1))).all (fun p => mv p.1 p.2)
            = false := by
        simp only [Bool.not_eq_true] at hall
        exact hall
      simp only [execute_groups, execute_action_group, move_group_eq, hmap, hall',
        if_false, List.flatMap_cons, List.all_append]
      rw [takeWhile_append_neg _ _ _ hall']
      simp

/-- C2 (amended): a queued move that raises aborts the remainder of the
batch: execution performs exactly the scheduled moves that precede the
first failing one (so later moves of the same group and all later groups
are not attempted), and the run completes without error exactly when
every scheduled move succeeds. -/
theorem C2_move_failure_aborts (mv : String → String → Bool)
    (q : List (Action × Candidate)) :
    (execute_actions mv q).1 = (plannedMoves q).takeWhile (fun p => mv p.1 p.2) ∧
    ((execute_actions mv q).2 = true ↔ ∀ p ∈ plannedMoves q, mv p.1 p.2 = true) := by
  have h := execute_groups_eq mv (grouped_queue q)
  constructor
  · show (execute_groups mv (grouped_queue q)).1 = _
    rw [h]
    rfl
  · show (execute_groups mv (grouped_queue q)).2 = true ↔ _
    rw [h]
    exact List.all_eq_true

/-- Destination candidate shared by the two failing-batch decisions. -/
def c2cand : Candidate := ⟨"/T", "dst", some 1, 3⟩

/-- First decision's Action; its move is the one that fails. -/
def c2a1 : Action := ⟨"f1", "/S", [c2cand]⟩

/-- Second decision's Action; its move would succeed. -/
def c2a2 : Action := ⟨"f2", "/S", [c2cand]⟩

/-- Queue holding both decisions, which execution groups together. -/
def c2q : List (Action × Candidate) := [(c2a1, c2cand), (c2a2, c2cand)]

/-- The path whose move raises. -/
def c2fail : String := "/S/f1"

/-- Move oracle: every move succeeds except the first file's. -/
def c2mv : String → String → Bool := fun s _ => decide (s ≠ c2fail)

/-- The second file's scheduled move. -/
def c2move : String × String := ("/S/f2", "/T/dst")

/-- C2 (counterexample): the second file's move succeeds on its own and
is scheduled, yet after the first file's move raises it is never
attempted — the claim that remaining moves of the same group are still
attempted fails. -/
theorem C2_move_failure_counterexample :
    c2move ∈ plannedMoves c2q ∧
    c2mv c2move.1 c2move.2 = true ∧
    c2move ∉ (execute_actions c2mv c2q).1 := by decide

theorem C2_move_failure_aborts_witness :
    (execute_actions c2mv c2q).1 = (plannedMoves c2q).takeWhile (fun p => c2mv p.1 p.2) ∧
    ((execute_actions c2mv c2q).2 = true ↔ ∀ p ∈ plannedMoves c2q, c2mv p.1 p.2 = true) :=
  C2_move_failure_aborts c2mv c2q

theorem C7_quit_aborts_witness :
    enqueue_action stFresh iAct iTop (ansQ :: ["y"]) = EnqRes.exit stFresh ["y"] ∧
    considerLoop iAct stFresh (iTop :: [iSnd]) (ansQ :: ["y"]) =
      ResRes.exit stFresh ["y"] ∧
    chooseLoop stFresh (iAct :: []) (ansQ :: ["y"]) = ResRes.exit stFresh ["y"] ∧
    run_i (fun _ _ => true) orgOne [ansQ] = [] ∧
    run_i (fun _ _ => true) orgOne ["y", ansQ] = [] := by
  have h1 := C7_quit_aborts stFresh stFresh iAct iTop [iSnd] [] ansQ
    (ansQ :: ["y"]) ["y"] ["y"] orgOne (fun _ _ => true)
  have h4 := C7_quit_aborts stFresh stFresh iAct iTop [iSnd] [] ansQ
    [ansQ] ["y"] [] orgOne (fun _ _ => true)
  have h5 := C7_quit_aborts stFresh ⟨[(iAct, iTop)], none⟩ iAct iTop [iSnd] [] ansQ
    ["y", ansQ] ["y"] [] orgOne (fun _ _ => true)
  exact ⟨h1.1 rfl (by decide), h1.2.1 (h1.1 rfl (by decide)),
    h1.2.2.1 (h1.2.1 (h1.1 rfl (by decide))), h4.2.2.2.1 (by decide),
    h5.2.2.2.2 (by decide) (by decide)⟩

theorem cndLE_of_ckey_eq {x y : Candidate}
    (h : Candidate.ckey x = Candidate.ckey y) : Candidate.cndLE x y := by
  have hr : x.root = y.root := congrArg (fun k => k.1) h
  have hn : x.name = y.name := congrArg (fun k => k.2.1) h
  have hs : x.score = y.score := congrArg (fun k => k.2.2) h
  exact Or.inr ⟨hr, Or.inr ⟨hn, by unfold Candidate.scoreVal; rw [hs]⟩⟩

theorem ckey_eq_of_cndLE_both {x y : Candidate}
    (h1 : Candidate.cndLE x y) (h2 : Candidate.cndLE y x)
    (hx : x.score.isSome) (hy : y.score.isSome) :
    Candidate.ckey x = Candidate.ckey y := by
  rcases h1 with h1 | ⟨hr, h1'⟩
  · rcases h2 with h2 | ⟨hr', h2'⟩
    · exact absurd h2 (pyLT_asymm h1)
    · rw [hr'] at h1; exact absurd h1 (pyLT_irrefl _)
  · rcases h2 with h2 | ⟨hr', h2'⟩
    · rw [hr] at h2; exact absurd h2 (pyLT_irrefl _)
    · rcases h1' with h1' | ⟨hn, h1''⟩
      · rcases h2' with h2' | ⟨hn', h2''⟩
        · exact absurd h2' (pyLT_asymm h1')
        · rw [hn'] at h1'; exact absurd h1' (pyLT_irrefl _)
      · rcases h2' with h2' | ⟨hn', h2''⟩
        · rw [hn] at h2'; exact absurd h2' (pyLT_irrefl _)
        · have hsv : Candidate.scoreVal x = Candidate.scoreVal y := le_antisymm h1'' h2''
          obtain ⟨a, ha⟩ := Option.isSome_iff_exists.mp hx
          obtain ⟨b, hb⟩ := Option.isSome_iff_exists.mp hy
          have hs : x.score = y.score := by
            unfold Candidate.scoreVal at hsv
            rw [ha, hb] at hsv ⊢
            simpa using hsv
          unfold Candidate.ckey
          rw [hr, hn, hs]

/-- chunkQueue in split form: the first chunk is the maximal leading run
of entries whose candidate key equals the head's. -/
theorem chunkQueue_cons (d : Action × Candidate) (ds : List (Action × Candidate)) :
    chunkQueue (d :: ds) =
      (d.2, d :: ds.takeWhile (fun e => Candidate.ckey e.2 = Candidate.ckey d.2)) ::
        chunkQueue (ds.dropWhile (fun e => Candidate.ckey e.2 = Candidate.ckey d.2)) := by
  induction ds generalizing d with
  | nil => rfl
  | cons e ds' ih =>
    show (match chunkQueue (e :: ds') with
      | [] => [(d.2, [d])]
      | (c, g) :: rest =>
        if Candidate.ckey d.2 = Candidate.ckey c then (d.2, d :: g) :: rest
        else (d.2, [d]) :: (c, g) :: rest) = _
    rw [ih e]
    dsimp only
    by_cases hk : Candidate.ckey d.2 = Candidate.ckey e.2
    · rw [if_pos hk, hk]
      simp [List.takeWhile_cons, List.dropWhile_cons]
    · rw [if_neg hk]
      have hk' : ¬ (Candidate.ckey e.2 = Candidate.ckey d.2) := fun h => hk h.symm
      simp [List.takeWhile_cons, List.dropWhile_cons, hk', ih e]

theorem mem_dropWhile_of_neg {α : Type} (p : α → Bool) (l : List α) (e : α)
    (he : e ∈ l) (hp : p e = false) : e ∈ l.dropWhile p := by
  have hsplit : e ∈ l.takeWhile p ++ l.dropWhile p := by
    rw [List.takeWhile_append_dropWhile]; exact he
  rcases List.mem_append.mp hsplit with h | h
  · exact absurd (List.mem_takeWhile_imp h) (by simp [hp])
  · exact h

/-- In a queue sorted by dQLE whose scores are all set, an entry with the
head's candidate key lies inside the head's leading run. -/
theorem mem_takeWhile_chunk (d : Action × Candidate)
    (ds : List (Action × Candidate)) (e : Action × Candidate)
    (hp : List.Pairwise dQLE (d :: ds)) (hsome : ∀ x ∈ d :: ds, x.2.score.isSome)
    (he : e ∈ ds) (hk : Candidate.ckey e.2 = Candidate.ckey d.2) :
    e ∈ ds.takeWhile (fun x => Candidate.ckey x.2 = Candidate.ckey d.2) := by
  induction ds with
  | nil => cases he
  | cons f ds' ih =>
    by_cases hf : Candidate.ckey f.2 = Candidate.ckey d.2
    · rcases List.mem_cons.mp he with rfl | he'
      · simp [List.takeWhile_cons, hf]
      · have hsub : (d :: ds').Sublist (d :: f :: ds') :=
          List.Sublist.cons₂ d (List.sublist_cons_self f ds')
        have hin := ih (hp.sublist hsub)
          (fun x hx => hsome x (hsub.subset hx)) he'
        simp [List.takeWhile_cons, hf, hin]
    · exfalso
      rcases List.mem_cons.mp he with rfl | he'
      · exact hf hk
      · rw [List.pairwise_cons] at hp
        obtain ⟨hd, hp'⟩ := hp
        rw [List.pairwise_cons] at hp'
        obtain ⟨hfall, _⟩ := hp'
        have h1 : Candidate.cndLE d.2 f.2 := hd f (List.mem_cons_self f ds')
        have h2 : Candidate.cndLE f.2 e.2 := hfall e he'
        have h3 : Candidate.cndLE e.2 d.2 := cndLE_of_ckey_eq hk
        have h4 : Candidate.cndLE f.2 d.2 := trans_of Candidate.cndLE h2 h3
        exact hf (ckey_eq_of_cndLE_both h4 h1
          (hsome (f, f.2).1 (by exact List.mem_cons_of_mem d (List.mem_cons_self f ds')))
          (hsome d (List.mem_cons_self d _)))

/-- In a dQLE-sorted queue with all scores set, any two entries whose
candidate keys agree land in the same chunk of chunkQueue. -/
theorem chunk_same_key : ∀ (n : Nat) (q : List (Action × Candidate)),
    q.length ≤ n → List.Pairwise dQLE q → (∀ d ∈ q, d.2.score.isSome) →
    ∀ d1 d2, d1 ∈ q → d2 ∈ q → Candidate.ckey d1.2 = Candidate.ckey d2.2 →
    ∃ cg ∈ chunkQueue q, d1 ∈ cg.2 ∧ d2 ∈ cg.2 := by
  intro n
  induction n with
  | zero =>
    intro q hq _ _ d1 d2 h1 _ _
    rw [Nat.le_zero, List.length_eq_zero] at hq
    subst hq
    cases h1
  | succ n ih =>
    intro q hq hp hsome d1 d2 h1 h2 hk
    cases q with
    | nil => cases h1
    | cons d ds =>
      rw [chunkQueue_cons]
      by_cases hd1 : Candidate.ckey d1.2 = Candidate.ckey d.2
      · have hd2 : Candidate.ckey d2.2 = Candidate.ckey d.2 := hk.symm.trans hd1
        refine ⟨_, List.mem_cons_self _ _, ?_, ?_⟩
        · rcases List.mem_cons.mp h1 with rfl | h1'
          · exact List.mem_cons_self _ _
          · exact List.mem_cons_of_mem _ (mem_takeWhile_chunk d ds d1 hp hsome h1' hd1)
        · rcases List.mem_cons.mp h2 with rfl | h2'
          · exact List.mem_cons_self _ _
          · exact List.mem_cons_of_mem _ (mem_takeWhile_chunk d ds d2 hp hsome h2' hd2)
      · have hd2 : ¬ (Candidate.ckey d2.2 = Candidate.ckey d.2) :=
          fun h => hd1 (hk.trans h)
        have h1' : d1 ∈ ds := by
          rcases List.mem_cons.mp h1 with rfl | h
          · exact absurd rfl hd1
          · exact h
        have h2' : d2 ∈ ds := by
          rcases List.mem_cons.mp h2 with rfl | h
          · exact absurd rfl hd2
          · exact h
        have hq' :
            (ds.dropWhile (fun x => Candidate.ckey x.2 = Candidate.ckey d.2)).length ≤ n := by
          have hlen : (ds.dropWhile
              (fun x => Candidate.ckey x.2 = Candidate.ckey d.2)).length ≤ ds.length :=
            (List.dropWhile_sublist _).length_le
          have hn : ds.length ≤ n := Nat.le_of_succ_le_succ hq
          exact le_trans hlen hn
        have hsub : (ds.dropWhile
            (fun x => Candidate.ckey x.2 = Candidate.ckey d.2)).Sublist (d :: ds) :=
          (List.dropWhile_sublist _).trans (List.sublist_cons_self d ds)
        obtain ⟨cg, hcg, hm1, hm2⟩ := ih _ hq' (hp.sublist hsub)
          (fun x hx => hsome x (hsub.subset hx)) d1 d2
          (mem_dropWhile_of_neg _ _ _ h1' (by simp [hd1]))
          (mem_dropWhile_of_neg _ _ _ h2' (by simp [hd2])) hk
        exact ⟨cg, List.mem_cons_of_mem _ hcg, hm1, hm2⟩

/-- C3 (amended): execution groups the decision queue by the full
Candidate identity (root, name and score, which is what
Candidate.__eq__ compares): any two queued decisions whose chosen
Candidates agree on root, name and score are placed in one group and
executed as a single batch.  (Scores must be set, as they always are for
queued decisions; Python could not even sort the queue otherwise.) -/
theorem C3_grouping_amended (q : List (Action × Candidate))
    (hsome : ∀ d ∈ q, d.2.score.isSome) (d1 d2 : Action × Candidate)
    (h1 : d1 ∈ q) (h2 : d2 ∈ q)
    (hk : Candidate.ckey d1.2 = Candidate.ckey d2.2) :
    ∃ cg ∈ grouped_queue q, d1 ∈ cg.2 ∧ d2 ∈ cg.2 := by
  have hperm := List.perm_insertionSort dQLE q
  exact chunk_same_key q.length (List.insertionSort dQLE q)
    (le_of_eq hperm.length_eq) (List.sorted_insertionSort dQLE q)
    (fun d hd => hsome d (hperm.mem_iff.mp hd)) d1 d2
    (hperm.mem_iff.mpr h1) (hperm.mem_iff.mpr h2) hk

theorem C3_grouping_amended_witness :
    ∃ cg ∈ grouped_queue c2q, (c2a1, c2cand) ∈ cg.2 ∧ (c2a2, c2cand) ∈ cg.2 :=
  C3_grouping_amended c2q (by decide) (c2a1, c2cand) (c2a2, c2cand)
    (by decide) (by decide) rfl

/-- First counterexample decision's candidate: destination /T/dst with
organic score 1. -/
def c3x : Candidate := ⟨"/T", "dst", some 1, 3⟩

/-- Second counterexample decision's candidate: the same destination
directory but score 2, so a different Candidate identity. -/
def c3y : Candidate := ⟨"/T", "dst", some 2, 3⟩

/-- Action of the first counterexample decision. -/
def c3a1 : Action := ⟨"f1", "/S", [c3x]⟩

/-- Action of the second counterexample decision. -/
def c3a2 : Action := ⟨"f2", "/S", [c3y]⟩

/-- Queue of the two counterexample decisions. -/
def c3q : List (Action × Candidate) := [(c3a1, c3x), (c3a2, c3y)]

/-- C3 (counterexample): two queued decisions whose chosen Candidates
designate the same destination directory (equal root and name) but carry
different scores are put in different groups — no group of the grouped
queue contains both — because grouping keys on Candidate.__eq__, which
also compares the score. -/
theorem C3_grouping_counterexample :
    c3x.root = c3y.root ∧ c3x.name = c3y.name ∧
    (c3a1, c3x) ∈ c3q ∧ (c3a2, c3y) ∈ c3q ∧
    ∀ cg ∈ grouped_queue c3q, ¬((c3a1, c3x) ∈ cg.2 ∧ (c3a2, c3y) ∈ cg.2) := by
  decide

/-- C4 (amended): a rule-injected Candidate (sentinel score 9999) is
ranked before every organically scored Candidate of the same Action whose
organic score is below the sentinel — every occurrence of the rule
Candidate in the ranked iteration precedes every occurrence of the
organic one.  (The bound is needed: an organic score, being a count of
matched name elements, is not limited by 9999 in the code.) -/
theorem C4_sentinel_dominates (a : Action) (rule org : Candidate)
    (relpath : String) (_hr : rule ∈ a.candidates)
    (hrs : rule.score = some 9999) (_ho : org ∈ a.candidates)
    (hos : OrganicallyScored org relpath)
    (hlt : organicScore org relpath < 9999) :
    precedes rule org (Action.ranked a) := by
  intro i j hi hj hgi hgj
  by_contra hij
  push_neg at hij
  have hsorted : List.Pairwise Candidate.keyLE (Action.ranked a) :=
    List.sorted_insertionSort Candidate.keyLE a.candidates
  have hsr : Candidate.scoreVal rule = 9999 := by
    unfold Candidate.scoreVal; rw [hrs]; rfl
  have hso : Candidate.scoreVal org = organicScore org relpath := by
    unfold Candidate.scoreVal; rw [hos.1]; rfl
  rcases Nat.lt_or_ge j i with hji | hij2
  · have hk := (List.pairwise_iff_get.mp hsorted) ⟨j, hj⟩ ⟨i, hi⟩ hji
    rw [hgj, hgi] at hk
    rcases hk with hk | ⟨hk, _⟩
    · rw [hsr, hso] at hk; omega
    · rw [hsr, hso] at hk; omega
  · have hij3 : i = j := le_antisymm hij2 hij
    have hfin : (⟨i, hi⟩ : Fin (Action.ranked a).length) = ⟨j, hj⟩ := Fin.ext hij3
    have heq : rule = org := by rw [← hgi, ← hgj, hfin]
    rw [heq, hso] at hsr
    omega

/-- Organic witness candidate for the amended C4 theorem. -/
def c4orgW : Candidate := ⟨"/b", "abc", some 1, 3⟩

/-- Rule witness candidate for the amended C4 theorem. -/
def c4ruleW : Candidate := ⟨"/books", "others", some 9999, 3⟩

/-- Witness relative path matched by c4orgW. -/
def relW4 : String := "abc_file.pdf"

/-- Witness Action holding the organic and the rule candidate. -/
def c4actW : Action := ⟨"f", "/s", [c4orgW, c4ruleW]⟩

theorem C4_sentinel_dominates_witness :
    OrganicallyScored c4orgW relW4 ∧
    precedes c4ruleW c4orgW (Action.ranked c4actW) :=
  ⟨⟨by decide, by decide⟩,
   C4_sentinel_dominates c4actW c4ruleW c4orgW relW4 (by decide) (by decide)
     (by decide) ⟨by decide, by decide⟩ (by decide)⟩

/-- A run of n letters a: a scoring element of the constructed name. -/
def aWord (n : Nat) : List Char := List.replicate n 'a'

/-- The n naturals counting up from s, built head-first. -/
def countFrom : Nat → Nat → List Nat
  | _, 0 => []
  | s, n + 1 => s :: countFrom (s + 1) n

theorem countFrom_length (n : Nat) : ∀ s, (countFrom s n).length = n := by
  induction n with
  | zero => intro s; rfl
  | succ n ih => intro s; show (countFrom (s + 1) n).length + 1 = n + 1; rw [ih]

theorem countFrom_mem {n : Nat} : ∀ {s i : Nat}, i ∈ countFrom s n → s ≤ i ∧ i < s + n := by
  induction n with
  | zero => intro s i h; cases h
  | succ n ih =>
    intro s i h
    rcases List.mem_cons.mp h with rfl | h
    · omega
    · have := ih h
      omega

theorem countFrom_nodup (n : Nat) : ∀ s, (countFrom s n).Nodup := by
  induction n with
  | zero => intro s; exact List.nodup_nil
  | succ n ih =>
    intro s
    refine List.Nodup.cons ?_ (ih (s + 1))
    intro hmem
    have := countFrom_mem hmem
    omega

theorem countFrom_snoc (n : Nat) : ∀ s, countFrom s (n + 1) = countFrom s n ++ [s + n] := by
  induction n with
  | zero => intro s; simp [countFrom]
  | succ n ih =>
    intro s
    show s :: countFrom (s + 1) (n + 1) = (s :: countFrom (s + 1) n) ++ [s + (n + 1)]
    rw [ih (s + 1)]
    simp
    omega

/-- 10000 pairwise distinct non-empty all-word-character words. -/
def bigWordsC : List (List Char) := (countFrom 0 10000).map (fun i => aWord (i + 1))

/-- The words joined by single spaces, as a directory name would hold
them. -/
def joinWords : List (List Char) → List Char
  | [] => []
  | [w] => w
  | w :: ws => w ++ ' ' :: joinWords ws

/-- The constructed directory name with 10000 scoring elements. -/
def bigName : String := String.mk (joinWords bigWordsC)

/-- The organically scored Candidate for the constructed directory: its
score is the organic match count 10000 against the relative path
bigName. -/
def bigOrg : Candidate := ⟨"/t2", bigName, some 10000, 1⟩

/-- The rule target path of the counterexample. -/
def rulePathW : String := "/books/others"

/-- The rule-injected sentinel Candidate of the counterexample (built
with length_threshold 1, the same organizer configuration). -/
def c4rule : Candidate := ⟨"/books", "others", some 9999, 1⟩

/-- The counterexample Action holding the sentinel and the organic
candidate. -/
def c4actBig : Action := ⟨"src", "/s", [c4rule, bigOrg]⟩

theorem joinWords_cons (x y : List Char) (l : List (List Char)) :
    joinWords (x :: y :: l) = x ++ ' ' :: joinWords (y :: l) := rfl

theorem joinWords_mem_char : ∀ (ws : List (List Char)) (c : Char),
    c ∈ joinWords ws → (∃ w ∈ ws, c ∈ w) ∨ c = ' '
  | [], c, h => absurd h (List.not_mem_nil c)
  | [w], c, h => Or.inl ⟨w, List.mem_singleton_self w, h⟩
  | w :: x :: l, c, h => by
    rw [joinWords_cons] at h
    rcases List.mem_append.mp h with h | h
    · exact Or.inl ⟨w, List.mem_cons_self w _, h⟩
    · rcases List.mem_cons.mp h with rfl | h
      · exact Or.inr rfl
      · rcases joinWords_mem_char (x :: l) c h with ⟨w', hw', hc⟩ | hc
        · exact Or.inl ⟨w', List.mem_cons_of_mem w hw', hc⟩
        · exact Or.inr hc

theorem joinWords_last_suffix : ∀ (ws : List (List Char)) (w : List Char),
    ∃ p, joinWords (ws ++ [w]) = p ++ w
  | [], w => ⟨[], rfl⟩
  | [x], w => ⟨x ++ [' '], by simp [joinWords]⟩
  | x :: y :: l, w => by
    obtain ⟨p, hp⟩ := joinWords_last_suffix (y :: l) w
    refine ⟨x ++ ' ' :: p, ?_⟩
    have hshape : (x :: y :: l) ++ [w] = x :: y :: (l ++ [w]) := rfl
    rw [hshape, joinWords_cons]
    have hshape2 : y :: (l ++ [w]) = (y :: l) ++ [w] := rfl
    rw [hshape2, hp]
    simp

theorem prefixB_append (w t : List Char) : prefixB w (w ++ t) = true := by
  induction w with
  | nil => rfl
  | cons a as ih => simp [prefixB, ih]

theorem substrB_of_decomp (p w t : List Char) : substrB w (p ++ w ++ t) = true := by
  induction p with
  | nil =>
    cases w with
    | nil =>
      cases t with
      | nil => rfl
      | cons b bs => simp [substrB, prefixB]
    | cons a as =>
      have h := prefixB_append (a :: as) t
      simp only [List.nil_append]
      show substrB (a :: as) ((a :: as) ++ t) = true
      cases hs : (a :: as) ++ t with
      | nil => simp at hs
      | cons b bs =>
        rw [substrB, ← hs, h]
        rfl
  | cons c p' ih =>
    show substrB w (c :: (p' ++ w ++ t)) = true
    rw [substrB, ih, Bool.or_true]

theorem map_id_of_mem {α : Type} {f : α → α} :
    ∀ {l : List α}, (∀ x ∈ l, f x = x) → l.map f = l := by
  intro l h
  rw [List.map_congr_left h]
  exact List.map_id l

theorem splitWordsAux_word (w : List Char) (hw : ∀ c ∈ w, isWordChar c = true) :
    ∀ (l acc : List Char), splitWordsAux (w ++ l) acc = splitWordsAux l (w.reverse ++ acc) := by
  induction w with
  | nil => intro l acc; simp
  | cons a w' ih =>
    intro l acc
    have ha : isWordChar a = true := hw a (List.mem_cons_self a w')
    show splitWordsAux (a :: (w' ++ l)) acc = _
    rw [splitWordsAux, if_pos ha, ih (fun c hc => hw c (List.mem_cons_of_mem a hc)) l (a :: acc)]
    simp

theorem splitWordsAux_space (l acc : List Char) :
    splitWordsAux (' ' :: l) acc =
      if acc.isEmpty then splitWordsAux l [] else acc.reverse :: splitWordsAux l [] := by
  rw [splitWordsAux, if_neg (by decide)]

theorem splitWords_joinWords : ∀ (ws : List (List Char)),
    (∀ w ∈ ws, w ≠ [] ∧ ∀ c ∈ w, isWordChar c = true) →
    splitWords (joinWords ws) = ws
  | [], _ => rfl
  | [w], h => by
    obtain ⟨hne, hall⟩ := h w (List.mem_singleton_self w)
    show splitWordsAux w [] = [w]
    have h1 := splitWordsAux_word w hall [] []
    rw [List.append_nil] at h1
    rw [h1, splitWordsAux]
    have hrev : (w.reverse ++ []).isEmpty = false := by
      simp [List.isEmpty_iff, hne]
    rw [if_neg (by rw [hrev]; exact Bool.false_ne_true)]
    simp
  | w :: x :: l, h => by
    obtain ⟨hne, hall⟩ := h w (List.mem_cons_self w _)
    show splitWordsAux (joinWords (w :: x :: l)) [] = w :: x :: l
    rw [joinWords_cons, splitWordsAux_word w hall (' ' :: joinWords (x :: l)) [],
      splitWordsAux_space]
    have hrev : (w.reverse ++ []).isEmpty = false := by
      simp [List.isEmpty_iff, hne]
    rw [if_neg (by rw [hrev]; exact Bool.false_ne_true)]
    have htail := splitWords_joinWords (x :: l)
      (fun v hv => h v (List.mem_cons_of_mem w hv))
    unfold splitWords at htail
    rw [htail]
    simp

theorem bigWordsC_words : ∀ w ∈ bigWordsC, w ≠ [] ∧ ∀ c ∈ w, isWordChar c = true := by
  intro w hw
  obtain ⟨i, _hi, rfl⟩ := List.mem_map.mp hw
  constructor
  · intro h
    have := congrArg List.length h
    simp [aWord] at this
  · intro c hc
    rw [List.eq_of_mem_replicate hc]
    decide

theorem bigOrg_elements :
    Candidate.elements bigOrg = bigWordsC.map (fun l => String.mk l) := by
  unfold Candidate.elements Candidate.split_name
  have hname : bigOrg.name.data = joinWords bigWordsC := rfl
  rw [hname]
  unfold splitWords at *
  rw [show splitWordsAux (joinWords bigWordsC) [] = bigWordsC from
    splitWords_joinWords bigWordsC bigWordsC_words]
  rw [List.filter_eq_self.mpr ?hfilter, List.dedup_eq_self.mpr ?hnodup]
  case hfilter =>
    intro a ha
    obtain ⟨l, hl, rfl⟩ := List.mem_map.mp ha
    obtain ⟨i, _hi, rfl⟩ := List.mem_map.mp hl
    unfold Candidate.consider_element
    have hlen : (String.mk (aWord (i + 1))).length = i + 1 := by
      show (aWord (i + 1)).length = i + 1
      simp [aWord]
    simp [hlen]
    show bigOrg.length_threshold ≤ i + 1
    show 1 ≤ i + 1
    omega
  case hnodup =>
    unfold bigWordsC
    rw [List.map_map]
    refine (countFrom_nodup 10000 0).map ?_
    intro i j hij
    have hdata : aWord (i + 1) = aWord (j + 1) := by
      have := congrArg String.data hij
      exact this
    have hlen := congrArg List.length hdata
    simp [aWord] at hlen
    exact hlen

theorem pyLower_bigName : pyLower bigName = bigName := by
  unfold pyLower
  apply congrArg String.mk
  apply map_id_of_mem
  intro c hc
  rcases joinWords_mem_char bigWordsC c hc with ⟨w, hw, hcw⟩ | rfl
  · obtain ⟨i, _hi, rfl⟩ := List.mem_map.mp hw
    rw [List.eq_of_mem_replicate hcw]
    decide
  · decide

theorem pyLower_aWord (n : Nat) : pyLower (String.mk (aWord n)) = String.mk (aWord n) := by
  unfold pyLower
  apply congrArg String.mk
  apply map_id_of_mem
  intro c hc
  rw [List.eq_of_mem_replicate hc]
  decide

theorem substr_word (i : Nat) (hi : i < 10000) :
    substrB (aWord (i + 1)) (joinWords bigWordsC) = true := by
  have hsplit : bigWordsC =
      ((countFrom 0 9999).map (fun i => aWord (i + 1))) ++ [aWord 10000] := by
    unfold bigWordsC
    rw [show (10000 : Nat) = 9999 + 1 by norm_num, countFrom_snoc 9999 0, List.map_append]
    norm_num
  obtain ⟨p, hp⟩ := joinWords_last_suffix
    ((countFrom 0 9999).map (fun i => aWord (i + 1))) (aWord 10000)
  have hrep : aWord 10000 = aWord (10000 - (i + 1)) ++ aWord (i + 1) := by
    unfold aWord
    rw [← List.replicate_add]
    congr 1
    omega
  rw [hsplit, hp, hrep, ← List.append_assoc]
  have h := substrB_of_decomp (p ++ aWord (10000 - (i + 1))) (aWord (i + 1)) []
  rw [List.append_nil] at h
  exact h

theorem organicScore_bigOrg : organicScore bigOrg bigName = 10000 := by
  unfold organicScore
  rw [bigOrg_elements]
  have hall : ∀ w ∈ bigWordsC.map (fun l => String.mk l),
      (fun w => substrB (pyLower w).data (pyLower bigName).data) w = true := by
    intro w hw
    obtain ⟨l, hl, rfl⟩ := List.mem_map.mp hw
    obtain ⟨i, hi, rfl⟩ := List.mem_map.mp hl
    show substrB (pyLower (String.mk (aWord (i + 1)))).data (pyLower bigName).data = true
    rw [pyLower_aWord, pyLower_bigName]
    show substrB (aWord (i + 1)) (joinWords bigWordsC) = true
    have hi' : i < 10000 := by
      have := countFrom_mem hi
      omega
    exact substr_word i hi'
  rw [List.countP_eq_length.mpr hall]
  unfold bigWordsC
  rw [List.length_map, List.length_map, countFrom_length]

theorem organicallyScored_bigOrg : OrganicallyScored bigOrg bigName := by
  constructor
  · show bigOrg.score = some (organicScore bigOrg bigName)
    rw [organicScore_bigOrg]
    rfl
  · rw [organicScore_bigOrg]
    omega

theorem ranked_c4actBig : Action.ranked c4actBig = [bigOrg, c4rule] := by
  have hnot : ¬ Candidate.keyLE c4rule bigOrg := by
    intro h
    rcases h with h | ⟨h, _⟩
    · exact absurd h (by decide)
    · exact absurd h (by decide)
  show List.insertionSort Candidate.keyLE [c4rule, bigOrg] = [bigOrg, c4rule]
  simp only [List.insertionSort, List.orderedInsert]
  rw [if_neg hnot]

/-- C4 (counterexample): an Action holding the rule-injected sentinel
Candidate (score 9999, exactly the Candidate the rule loop builds for the
rule target /books/others) together with an organically scored Candidate
whose organic match count is 10000 — a directory name of 10000 distinct
scoring elements all occurring in the relative path — ranks the organic
Candidate first, so the rule Candidate is not placed before every
organically scored Candidate. -/
theorem C4_sentinel_counterexample :
    c4rule = ruleCand 1 rulePathW ∧
    c4rule.score = some 9999 ∧
    c4rule ∈ c4actBig.candidates ∧
    bigOrg ∈ c4actBig.candidates ∧
    OrganicallyScored bigOrg bigName ∧
    ¬ precedes c4rule bigOrg (Action.ranked c4actBig) := by
  refine ⟨by decide, rfl, List.mem_cons_self _ _,
    List.mem_cons_of_mem _ (List.mem_cons_self _ _), organicallyScored_bigOrg, ?_⟩
  rw [ranked_c4actBig]
  intro hp
  have h := hp 1 0 (by decide) (by decide) rfl rfl
  omega

theorem C9_automatic_queue_witness :
    (choose_actions orgTwo).queue =
      orgTwo.queue ++ (sortedActions orgTwo).map (fun a => (a, (Action.ranked a).headI)) ∧
    (sortedActions orgTwo).Perm (orgTwo.actions.map (fun p => p.2)) ∧
    List.Pairwise srcLE (sortedActions orgTwo) :=
  C9_automatic_queue orgTwo (by decide)

theorem addAll_cons (l : List Candidate) (c : Candidate) (cs : List Candidate) :
    addAll l (c :: cs) = addAll (addCand l c) cs := rfl

theorem addAll_nil (l : List Candidate) : addAll l [] = l := rfl

/-- The key of c occurs in l. -/
def keyIn (l : List Candidate) (c : Candidate) : Prop :=
  ∃ d ∈ l, Candidate.ckey d = Candidate.ckey c

theorem keyIn_iff_any {l : List Candidate} {c : Candidate} :
    (l.any (fun d => Candidate.ckey d = Candidate.ckey c)) = true ↔ keyIn l c := by
  rw [List.any_eq_true]
  unfold keyIn
  simp

theorem addCand_of_keyIn {l : List Candidate} {c : Candidate} (h : keyIn l c) :
    addCand l c = l := by
  unfold addCand
  rw [if_pos (keyIn_iff_any.mpr h)]

theorem addCand_of_not_keyIn {l : List Candidate} {c : Candidate} (h : ¬ keyIn l c) :
    addCand l c = l ++ [c] := by
  unfold addCand
  rw [if_neg (fun hh => h (keyIn_iff_any.mp hh))]

theorem addCand_keyIn_preserved {l : List Candidate} {x c : Candidate}
    (h : keyIn l x) : keyIn (addCand l c) x := by
  unfold addCand
  split
  · exact h
  · obtain ⟨d, hd, hk⟩ := h
    exact ⟨d, List.mem_append_left _ hd, hk⟩

theorem addCand_keyIn_self (l : List Candidate) (c : Candidate) :
    keyIn (addCand l c) c := by
  by_cases h : keyIn l c
  · rw [addCand_of_keyIn h]; exact h
  · rw [addCand_of_not_keyIn h]
    exact ⟨c, List.mem_append_right l (List.mem_singleton_self c), rfl⟩

theorem addAll_keyIn_preserved {l cs : List Candidate} {x : Candidate}
    (h : keyIn l x) : keyIn (addAll l cs) x := by
  induction cs generalizing l with
  | nil => exact h
  | cons c cs ih => rw [addAll_cons]; exact ih (addCand_keyIn_preserved h)

theorem addAll_keyIn_left {l cs : List Candidate} {x : Candidate}
    (h : keyIn cs x) : keyIn (addAll l cs) x := by
  induction cs generalizing l with
  | nil => obtain ⟨d, hd, _⟩ := h; cases hd
  | cons c cs ih =>
    obtain ⟨d, hd, hk⟩ := h
    rcases List.mem_cons.mp hd with rfl | hd'
    · rw [addAll_cons]
      refine addAll_keyIn_preserved ?_
      obtain ⟨e, he, hek⟩ := addCand_keyIn_self l d
      exact ⟨e, he, hek.trans hk⟩
    · rw [addAll_cons]
      exact ih ⟨d, hd', hk⟩

theorem addAll_addCand (s t : List Candidate) (x : Candidate) :
    addAll s (addCand t x) = addCand (addAll s t) x := by
  by_cases h : keyIn t x
  · rw [addCand_of_keyIn h, addCand_of_keyIn (addAll_keyIn_left h)]
  · rw [addCand_of_not_keyIn h]
    show (t ++ [x]).foldl addCand s = _
    rw [List.foldl_append]
    rfl

theorem addAll_addAll (s t u : List Candidate) :
    addAll s (addAll t u) = addAll (addAll s t) u := by
  induction u generalizing t with
  | nil => rfl
  | cons x u ih =>
    show addAll s (addAll (addCand t x) u) = addAll (addCand (addAll s t) x) u
    rw [ih (addCand t x), addAll_addCand]

theorem addAll_eq_nil {s u : List Candidate} (h : addAll s u = []) :
    s = [] ∧ u = [] := by
  induction u generalizing s with
  | nil => exact ⟨h, rfl⟩
  | cons x u ih =>
    rw [addAll_cons] at h
    obtain ⟨h1, _⟩ := ih h
    exfalso
    rcases s with _ | ⟨a, s'⟩
    · simp [addCand] at h1
    · unfold addCand at h1
      split at h1 <;> simp at h1

theorem addAll_two (x R1 G1 : List Candidate) :
    addAll (addAll x R1) G1 = addAll x (addAll (addAll [] R1) G1) := by
  rw [addAll_addAll x (addAll [] R1) G1, addAll_addAll x [] R1, addAll_nil]

theorem alookup_ainsert (acts : List (String × Action)) (k : String) (a : Action)
    (k' : String) :
    alookup (ainsert acts k a) k' = if k = k' then some a else alookup acts k' := by
  induction acts with
  | nil => rfl
  | cons p rest ih =>
    obtain ⟨k2, a2⟩ := p
    show alookup (if k2 = k then (k2, a) :: rest else (k2, a2) :: ainsert rest k a) k' = _
    by_cases h : k2 = k
    · rw [if_pos h]
      subst h
      by_cases h2 : k2 = k'
      · simp [alookup, h2]
      · simp [alookup, h2]
    · rw [if_neg h]
      by_cases h2 : k2 = k'
      · subst h2
        have hk : ¬ (k = k2) := fun hh => h hh.symm
        simp [alookup, hk]
      · simp [alookup, h2, ih]

theorem alookup_append (A B : List (String × Action)) (k : String) :
    alookup (A ++ B) k =
      match alookup A k with
      | some a => some a
      | none => alookup B k := by
  induction A with
  | nil => rfl
  | cons p rest ih =>
    obtain ⟨k2, a2⟩ := p
    by_cases h : k2 = k
    · simp [alookup, h]
    · simp [alookup, h, ih]

theorem alookup_eq_none (B : List (String × Action)) (k : String)
    (h : k ∉ B.map (fun p => p.1)) : alookup B k = none := by
  induction B with
  | nil => rfl
  | cons p rest ih =>
    obtain ⟨k2, a2⟩ := p
    simp only [List.map_cons, List.mem_cons] at h
    push_neg at h
    have h1 : ¬ (k2 = k) := fun hh => h.1 hh.symm
    simp [alookup, h1, ih h.2]

/-- The effect of processing one (source_root, filepath) pair on the
Action stored at that filepath's key. -/
def perKeyStep (rules : List (String × String)) (lt : Nat) (tmpls : List Candidate)
    (fs : Filesystem) (p : String × String) (o : Option Action) : Option Action :=
  let relpath := fs.rel p.2 p.1
  let a0 : Action :=
    match o with
    | some a => a
    | none => ⟨relpath, p.1, []⟩
  let a1 : Action := { a0 with candidates := addAll a0.candidates (ruleCands rules lt relpath) }
  let a2 : Action := { a1 with candidates := addAll a1.candidates (organicAdds tmpls relpath) }
  if a2.candidates = [] then o else some a2

theorem alookup_processFile (rules : List (String × String)) (lt : Nat)
    (tmpls : List Candidate) (fs : Filesystem) (acts : List (String × Action))
    (sr f k : String) :
    alookup (processFile rules lt tmpls fs acts sr f) k =
      if f = k then perKeyStep rules lt tmpls fs (sr, f) (alookup acts f)
      else alookup acts k := by
  unfold processFile perKeyStep
  dsimp only
  split
  · by_cases hfk : f = k
    · subst hfk; simp
    · simp [hfk]
  · by_cases hfk : f = k
    · subst hfk; simp [alookup_ainsert]
    · simp [hfk, alookup_ainsert]

theorem alookup_foldl_pairs (rules : List (String × String)) (lt : Nat)
    (tmpls : List Candidate) (fs : Filesystem) :
    ∀ (pairs : List (String × String)) (acts : List (String × Action)) (k : String),
    alookup (pairs.foldl (fun acc p => processFile rules lt tmpls fs acc p.1 p.2) acts) k =
      (pairs.filter (fun p => p.2 = k)).foldl
        (fun o p => perKeyStep rules lt tmpls fs p o) (alookup acts k) := by
  intro pairs
  induction pairs with
  | nil => intro acts k; rfl
  | cons p ps ih =>
    intro acts k
    rw [List.foldl_cons, ih]
    by_cases hpk : p.2 = k
    · have hfilter :
          ((p :: ps).filter (fun q => q.2 = k)) = p :: ps.filter (fun q => q.2 = k) := by
        simp [List.filter_cons, hpk]
      rw [hfilter, List.foldl_cons]
      have hloc := alookup_processFile rules lt tmpls fs acts p.1 p.2 k
      rw [if_pos hpk] at hloc
      rw [hloc]
      subst hpk
      rfl
    · have hfilter :
          ((p :: ps).filter (fun q => q.2 = k)) = ps.filter (fun q => q.2 = k) := by
        simp [List.filter_cons, hpk]
      rw [hfilter]
      have hloc := alookup_processFile rules lt tmpls fs acts p.1 p.2 k
      rw [if_neg hpk] at hloc
      rw [hloc]

/-- The flat stream of (source_root, filepath) pairs of one calculation
pass. -/
def calcPairs (fs : Filesystem) (sroots : List String) : List (String × String) :=
  sroots.flatMap (fun sr => (fs.files sr).map (fun f => (sr, f)))

theorem nested_fold (rules : List (String × String)) (lt : Nat)
    (tmpls : List Candidate) (fs : Filesystem) :
    ∀ (sroots : List String) (acts : List (String × Action)),
    sroots.foldl
      (fun acts sr =>
        (fs.files sr).foldl (fun acts f => processFile rules lt tmpls fs acts sr f) acts)
      acts
      = (calcPairs fs sroots).foldl
          (fun acc p => processFile rules lt tmpls fs acc p.1 p.2) acts := by
  intro sroots
  induction sroots with
  | nil => intro acts; rfl
  | cons sr srs ih =>
    intro acts
    rw [List.foldl_cons, ih]
    unfold calcPairs
    rw [List.flatMap_cons, List.foldl_append, List.foldl_map]

theorem calc_actions_eq_fold (fs : Filesystem) (org : FileOrganizer)
    (tr : String) (srcs : List String) :
    (calculate_actions fs org tr (some srcs)).org.actions =
      (calcPairs fs srcs).foldl
        (fun acc p => processFile org.rules org.length_threshold
          (targetTemplates fs org.length_threshold tr) fs acc p.1 p.2)
        org.actions := by
  show (srcs.foldl
      (fun acts sr =>
        (fs.files sr).foldl
          (fun acts f => processFile org.rules org.length_threshold
            (targetTemplates fs org.length_threshold tr) fs acts sr f) acts)
      org.actions) = _
  rw [nested_fold]

theorem mergeVal_none_right (o : Option Action) : mergeVal o none = o := by
  cases o <;> rfl

theorem perKeyStep_mergeVal (rules : List (String × String)) (lt : Nat)
    (tmpls : List Candidate) (fs : Filesystem) (p : String × String)
    (o ob : Option Action) :
    perKeyStep rules lt tmpls fs p (mergeVal o ob) =
      mergeVal o (perKeyStep rules lt tmpls fs p ob) := by
  cases o with
  | none => rfl
  | some a =>
    obtain ⟨asrc, aroot, acands⟩ := a
    cases ob with
    | none =>
      show perKeyStep rules lt tmpls fs p (some ⟨asrc, aroot, acands⟩) =
        mergeVal (some ⟨asrc, aroot, acands⟩) (perKeyStep rules lt tmpls fs p none)
      unfold perKeyStep
      dsimp only
      rw [addAll_two acands]
      by_cases hC : addAll (addAll [] (ruleCands rules lt (fs.rel p.2 p.1)))
          (organicAdds tmpls (fs.rel p.2 p.1)) = []
      · rw [hC, addAll_nil, if_pos rfl]
        show _ = mergeVal (some ⟨asrc, aroot, acands⟩) none
        rw [mergeVal_none_right]
        by_cases ha : acands = []
        · rw [if_pos ha]
        · rw [if_neg ha]
      · rw [if_neg hC]
        have hne : addAll acands (addAll (addAll [] (ruleCands rules lt (fs.rel p.2 p.1)))
            (organicAdds tmpls (fs.rel p.2 p.1))) ≠ [] := by
          intro h
          exact hC (addAll_eq_nil h).2
        rw [if_neg hne]
        rfl
    | some b =>
      obtain ⟨bsrc, broot, bcands⟩ := b
      show perKeyStep rules lt tmpls fs p
          (some ⟨asrc, aroot, addAll acands bcands⟩) =
        mergeVal (some ⟨asrc, aroot, acands⟩)
          (perKeyStep rules lt tmpls fs p (some ⟨bsrc, broot, bcands⟩))
      unfold perKeyStep
      dsimp only
      generalize ruleCands rules lt (fs.rel p.2 p.1) = R1
      generalize organicAdds tmpls (fs.rel p.2 p.1) = G1
      have e1 : addAll (addAll (addAll acands bcands) R1) G1 =
          addAll acands (addAll bcands (addAll (addAll [] R1) G1)) := by
        rw [addAll_two (addAll acands bcands) R1 G1, ← addAll_addAll]
      have e2 : addAll (addAll bcands R1) G1 =
          addAll bcands (addAll (addAll [] R1) G1) := addAll_two bcands R1 G1
      rw [e1, e2]
      by_cases hb : addAll bcands (addAll (addAll [] R1) G1) = []
      · obtain ⟨hb1, hb2⟩ := addAll_eq_nil hb
        rw [hb, addAll_nil, if_pos rfl]
        subst hb1
        simp only [mergeVal, addAll_nil]
        split <;> rfl
      · rw [if_neg hb]
        have hne : addAll acands (addAll bcands (addAll (addAll [] R1) G1)) ≠ [] := by
          intro h
          exact hb (addAll_eq_nil h).2
        rw [if_neg hne]
        rfl

theorem foldl_perKey_mergeVal (rules : List (String × String)) (lt : Nat)
    (tmpls : List Candidate) (fs : Filesystem) :
    ∀ (ps : List (String × String)) (o ob : Option Action),
    ps.foldl (fun acc p => perKeyStep rules lt tmpls fs p acc) (mergeVal o ob) =
      mergeVal o (ps.foldl (fun acc p => perKeyStep rules lt tmpls fs p acc) ob) := by
  intro ps
  induction ps with
  | nil => intro o ob; rfl
  | cons p ps ih =>
    intro o ob
    rw [List.foldl_cons, List.foldl_cons, perKeyStep_mergeVal, ih]

theorem alookup_merge (B : List (String × Action)) :
    ∀ (A : List (String × Action)) (k : String),
    (B.map (fun p => p.1)).Nodup →
    alookup (mergeActionsSpec A B) k = mergeVal (alookup A k) (alookup B k) := by
  induction B with
  | nil =>
    intro A k _
    show alookup A k = _
    have hnil : alookup ([] : List (String × Action)) k = none := rfl
    rw [hnil, mergeVal_none_right]
  | cons pb B' ih =>
    intro A k hB
    obtain ⟨kb, b⟩ := pb
    simp only [List.map_cons, List.nodup_cons] at hB
    obtain ⟨hkb, hB'⟩ := hB
    have hstep : mergeActionsSpec A ((kb, b) :: B') =
        mergeActionsSpec
          (match alookup A kb with
           | some a => ainsert A kb { a with candidates := addAll a.candidates b.candidates }
           | none => A ++ [(kb, b)]) B' := by
      show ((kb, b) :: B').foldl _ A = _
      rw [List.foldl_cons]
      rfl
    rw [hstep, ih _ k hB']
    by_cases hk : kb = k
    · subst hk
      have hBnone : alookup B' kb = none := alookup_eq_none B' kb hkb
      rw [hBnone, mergeVal_none_right]
      show _ = mergeVal (alookup A kb) (alookup ((kb, b) :: B') kb)
      have hhead : alookup ((kb, b) :: B') kb = some b := by
        simp [alookup]
      rw [hhead]
      cases ha : alookup A kb with
      | some a =>
        rw [alookup_ainsert, if_pos rfl]
        rfl
      | none =>
        rw [alookup_append, ha]
        simp [alookup]
        rfl
    · have hhead : alookup ((kb, b) :: B') k = alookup B' k := by
        have h1 : ¬ (kb = k) := hk
        simp [alookup, h1]
      rw [hhead]
      have hA : alookup
          (match alookup A kb with
           | some a => ainsert A kb { a with candidates := addAll a.candidates b.candidates }
           | none => A ++ [(kb, b)]) k = alookup A k := by
        cases ha : alookup A kb with
        | some a => rw [alookup_ainsert, if_neg hk]
        | none =>
          rw [alookup_append]
          cases hak : alookup A k with
          | some x => rfl
          | none => simp [alookup, hk]
      rw [hA]

theorem ainsert_keys (acts : List (String × Action)) (k : String) (a : Action) :
    (ainsert acts k a).map (fun p => p.1) =
      if k ∈ acts.map (fun p => p.1) then acts.map (fun p => p.1)
      else acts.map (fun p => p.1) ++ [k] := by
  induction acts with
  | nil => simp [ainsert]
  | cons p rest ih =>
    obtain ⟨k2, a2⟩ := p
    show ((if k2 = k then (k2, a) :: rest else (k2, a2) :: ainsert rest k a).map
      (fun p => p.1)) = _
    by_cases h : k2 = k
    · subst h
      rw [if_pos rfl]
      simp
    · rw [if_neg h]
      have h2 : ¬ (k = k2) := fun hh => h hh.symm
      simp only [List.map_cons, List.mem_cons, ih]
      by_cases h3 : k ∈ rest.map (fun p => p.1)
      · simp [h2, h3]
      · simp [h2, h3]

theorem processFile_keys_nodup (rules : List (String × String)) (lt : Nat)
    (tmpls : List Candidate) (fs : Filesystem) (acts : List (String × Action))
    (sr f : String) (h : (acts.map (fun p => p.1)).Nodup) :
    ((processFile rules lt tmpls fs acts sr f).map (fun p => p.1)).Nodup := by
  unfold processFile
  dsimp only
  split
  · exact h
  · rw [ainsert_keys]
    by_cases hf : f ∈ acts.map (fun p => p.1)
    · rw [if_pos hf]; exact h
    · rw [if_neg hf]
      simp [List.nodup_append, h, hf]

theorem foldl_keys_nodup (rules : List (String × String)) (lt : Nat)
    (tmpls : List Candidate) (fs : Filesystem) :
    ∀ (pairs : List (String × String)) (acts : List (String × Action)),
    (acts.map (fun p => p.1)).Nodup →
    ((pairs.foldl (fun acc p => processFile rules lt tmpls fs acc p.1 p.2) acts).map
      (fun p => p.1)).Nodup := by
  intro pairs
  induction pairs with
  | nil => intro acts h; exact h
  | cons p ps ih =>
    intro acts h
    rw [List.foldl_cons]
    exact ih _ (processFile_keys_nodup rules lt tmpls fs acts p.1 p.2 h)

/-- C6: calculation is cumulative.  Running calculate_actions for
destination root t1 and then for t2 on the same organizer produces the
same Action map (pointwise, at every source key) as running each pass
independently from the same fresh organizer and merging the resulting
maps by source key in the spec's sense: an Action already present is
reused and its candidate set extended, never replaced
(mergeActionsSpec). -/
theorem C6_cumulative_calculation (fs : Filesystem) (org : FileOrganizer)
    (t1 t2 : String) (srcs : List String) (h0 : org.actions = [])
    (_hne : t1 ≠ t2) (k : String) :
    alookup ((calculate_actions fs
        (calculate_actions fs org t1 (some srcs)).org t2 (some srcs)).org).actions k =
      alookup (mergeActionsSpec
        ((calculate_actions fs org t1 (some srcs)).org).actions
        ((calculate_actions fs org t2 (some srcs)).org).actions) k := by
  have horg1rules : (calculate_actions fs org t1 (some srcs)).org.rules = org.rules := rfl
  have horg1lt : (calculate_actions fs org t1 (some srcs)).org.length_threshold
      = org.length_threshold := rfl
  have hA2 : ((calculate_actions fs org t2 (some srcs)).org).actions =
      (calcPairs fs srcs).foldl
        (fun acc p => processFile org.rules org.length_threshold
          (targetTemplates fs org.length_threshold t2) fs acc p.1 p.2) [] := by
    rw [calc_actions_eq_fold, h0]
  have hLHS : ((calculate_actions fs
      (calculate_actions fs org t1 (some srcs)).org t2 (some srcs)).org).actions =
      (calcPairs fs srcs).foldl
        (fun acc p => processFile org.rules org.length_threshold
          (targetTemplates fs org.length_threshold t2) fs acc p.1 p.2)
        ((calculate_actions fs org t1 (some srcs)).org).actions := by
    rw [calc_actions_eq_fold, horg1rules, horg1lt]
  rw [hLHS, hA2]
  have hnodup : (((calcPairs fs srcs).foldl
      (fun acc p => processFile org.rules org.length_threshold
        (targetTemplates fs org.length_threshold t2) fs acc p.1 p.2) []).map
      (fun p => p.1)).Nodup :=
    foldl_keys_nodup org.rules org.length_threshold
      (targetTemplates fs org.length_threshold t2) fs (calcPairs fs srcs) []
      List.nodup_nil
  have hm := alookup_merge _
    ((calculate_actions fs org t1 (some srcs)).org).actions k hnodup
  rw [hm]
  rw [alookup_foldl_pairs, alookup_foldl_pairs]
  have hnil : alookup ([] : List (String × Action)) k = none := rfl
  rw [hnil, ← foldl_perKey_mergeVal, mergeVal_none_right]

/-- Witness filesystem: one source file matching a directory under each
destination root. -/
def fsC6 : Filesystem :=
  ⟨fun r => if r = "/t1" then ["Books"] else if r = "/t2" then ["Candy"] else [],
   fun r => if r = "/s" then ["/s/books_candy.pdf"] else [],
   fun f _ => String.mk (f.data.drop 3)⟩

/-- Witness organizer for C6 (fresh: no actions, no queue). -/
def orgC6 : FileOrganizer := ⟨none, [], [], 3, []⟩

/-- Witness destination roots and source key. -/
def t1W : String := "/t1"

def t2W : String := "/t2"

def srcsW : List String := ["/s"]

def kW : String := "/s/books_candy.pdf"

theorem C6_cumulative_calculation_witness :
    alookup ((calculate_actions fsC6
        (calculate_actions fsC6 orgC6 t1W (some srcsW)).org t2W (some srcsW)).org).actions kW =
      alookup (mergeActionsSpec
        ((calculate_actions fsC6 orgC6 t1W (some srcsW)).org).actions
        ((calculate_actions fsC6 orgC6 t2W (some srcsW)).org).actions) kW :=
  C6_cumulative_calculation fsC6 orgC6 t1W t2W srcsW rfl (by decide) kW

end FileOrg
